import Mathlib

/-!
Verification of the kseq streaming fasta/fastq parser.

The Rust sources are shallowly embedded as pure Lean functions over byte
lists (`List Nat`, one `Nat` per byte).  A `Reader`'s state is the pair of
the remaining input bytes and the shared record buffer `data` (the
underlying `BufRead` is modelled as a cursor over the full remaining
input, which is what `fill_buf` exposes for an in-memory source: every
call sees all remaining bytes).
-/

deriving instance DecidableEq for Except

/-- The byte values `b` with `0 ≤ b < 256` for which Rust's
`char::is_whitespace(b as char)` holds: tab, line feed, vertical tab,
form feed, carriage return, space, next line (U+0085) and no-break
space (U+00A0). -/
def isWs (b : Nat) : Bool :=
  b = 9 || b = 10 || b = 11 || b = 12 || b = 13 || b = 32 || b = 133 || b = 160

/-- State of `Reader` (src/record.rs): the remaining bytes of the wrapped
stream and the shared buffer `data`. -/
structure RState where
  input : List Nat
  data : List Nat
deriving DecidableEq

/-- `ParseError` from src/record.rs (the `Io` variant cannot arise for an
in-memory source and is omitted; each other variant carries the offending
bytes). -/
inductive ParseError where
  | truncateFile (s : List Nat)
  | invalidFastx (s : List Nat)
  | invalidFasta (s : List Nat)
  | invalidFastq (s : List Nat)
deriving DecidableEq

/-- The record view `Fastx` from src/record.rs: five offsets into the
shared buffer, and (in place of the borrowed reference) the buffer
contents themselves. -/
structure Fastx where
  _head : Nat
  _des : Nat
  _seq : Nat
  _sep : Nat
  _qual : Nat
  _data : List Nat
deriving DecidableEq

/-- `Fastx::head`: `&data[1.._head]`. -/
def Fastx.head (f : Fastx) : List Nat := (f._data.take f._head).drop 1

/-- `Fastx::seq`: `&data[_des.._seq]`. -/
def Fastx.seq (f : Fastx) : List Nat := (f._data.take f._seq).drop f._des

/-- `Fastx::des`: `&data[_head.._des]` when `_head < _des`, else empty. -/
def Fastx.des (f : Fastx) : List Nat :=
  if f._head < f._des then (f._data.take f._des).drop f._head else []

/-- `Fastx::sep`: `&data[_seq.._sep]` when `_seq < _sep`, else empty. -/
def Fastx.sep (f : Fastx) : List Nat :=
  if f._seq < f._sep then (f._data.take f._sep).drop f._seq else []

/-- `Fastx::qual`: `&data[_sep.._qual]` when `_sep < _qual`, else empty. -/
def Fastx.qual (f : Fastx) : List Nat :=
  if f._sep < f._qual then (f._data.take f._qual).drop f._sep else []

/-- `Fastx::len`: `_seq - _des`. -/
def Fastx.len (f : Fastx) : Nat := f._seq - f._des

/-- `Fastx::is_empty`. -/
def Fastx.is_empty (f : Fastx) : Bool := f.len = 0

/-- `Fastx::is_fasta`: buffer nonempty and byte 0 is `'>'` (62). -/
def Fastx.is_fasta (f : Fastx) : Bool := f._data.head? = some 62

/-- `Fastx::is_fastq`: buffer nonempty and byte 0 is `'@'` (64). -/
def Fastx.is_fastq (f : Fastx) : Bool := f._data.head? = some 64

/-- `Fastx::validate_fastq`. -/
def Fastx.validate_fastq (f : Fastx) : Bool :=
  f.is_fastq && !f.is_empty && (f._seq - f._des == f._qual - f._sep) && decide (1 < f._head)

/-- `Fastx::validate_fasta`. -/
def Fastx.validate_fasta (f : Fastx) : Bool :=
  f.is_fasta && !f.is_empty && decide (1 < f._head)

/-- Rust's `Iterator::position` on a byte list (used by `iter_record` for the
first whitespace byte, and as the `memchr` search inside the read loops). -/
def position (p : Nat → Bool) : List Nat → Option Nat
  | [] => none
  | b :: bs => if p b then some 0 else (position p bs).map (· + 1)

/-- Helper for `Reader::read_line`: consumes one line from the input,
returning the remaining input and the line's bytes without the
terminating newline.  With `skip` set (`skip_blank_line`), lines that are
empty after stripping the terminator are consumed and skipped, exactly
like the retry loop in the Rust code. -/
def readLineAux (skip : Bool) : List Nat → List Nat × List Nat
  | [] => ([], [])
  | b :: bs =>
    if b = 10 then
      if skip then readLineAux skip bs else (bs, [])
    else
      let line := (b :: bs).takeWhile (fun x => x ≠ 10)
      ((b :: bs).drop (line.length + 1), line)

/-- `Reader::read_line`: append one line (newline stripped, blank lines
optionally skipped) to `data`; returns the new state and the number of
bytes appended. -/
def readLine (skip : Bool) (s : RState) : RState × Nat :=
  let p := readLineAux skip s.input
  (⟨p.1, s.data ++ p.2⟩, p.2.length)

/-- `Reader::read_until(delim)`: the `memchr2(delim, b'\n')` scan copies
every byte strictly before the first occurrence of `delim`, dropping
newline bytes, and consumes the input up to but not including `delim`
(the final `break (true, i)` consumes only `i` bytes); when `delim` does
not occur the whole input is copied (newlines dropped) and consumed.
The returned count is the number of bytes appended to `data`. -/
def readUntil (delim : Nat) (s : RState) : RState × Nat :=
  match position (fun b => b = delim) s.input with
  | some k =>
      (⟨s.input.drop k, s.data ++ (s.input.take k).filter (fun b => b ≠ 10)⟩,
       ((s.input.take k).filter (fun b => b ≠ 10)).length)
  | none =>
      (⟨[], s.data ++ s.input.filter (fun b => b ≠ 10)⟩,
       (s.input.filter (fun b => b ≠ 10)).length)

/-- Position just after the `len`-th non-newline byte of a list, when that
many non-newline bytes exist (`none` otherwise).  This is the number of
bytes `Reader::read_exact` consumes in its successful `break (true, e)`
exits. -/
def exactEnd : List Nat → Nat → Option Nat
  | _, 0 => some 0
  | [], _ + 1 => none
  | b :: bs, n + 1 =>
    if b = 10 then (exactEnd bs (n + 1)).map (· + 1)
    else (exactEnd bs n).map (· + 1)

/-- `Reader::read_exact(len)`: copy exactly `len` non-newline bytes into
`data`, skipping newline bytes, consuming the input through the `len`-th
non-newline byte; at end of stream with fewer than `len` such bytes it
copies and consumes everything and returns the smaller count. -/
def readExact (len : Nat) (s : RState) : RState × Nat :=
  match exactEnd s.input len with
  | some k =>
      (⟨s.input.drop k, s.data ++ (s.input.take k).filter (fun b => b ≠ 10)⟩, len)
  | none =>
      (⟨[], s.data ++ s.input.filter (fun b => b ≠ 10)⟩,
       (s.input.filter (fun b => b ≠ 10)).length)

/-- `Reader::has_data_left`: true iff some remaining byte is not
whitespace; when everything left is whitespace the loop consumes it all
and reports false. -/
def hasDataLeft (s : RState) : RState × Bool :=
  if s.input.any (fun b => !(isWs b)) then (s, true) else (⟨[], s.data⟩, false)

/-- Tail of `Reader::iter_record` after the section offsets are known:
the truncation test (which always runs `has_data_left` first) and the
per-format validation. -/
def finish (s : RState) (is_fasta : Bool) (head des seq sep qual : Nat) :
    RState × Except ParseError (Option Fastx) :=
  let h := hasDataLeft s
  if h.2 = false ∧ (head = 1 ∨ seq = des ∨ (is_fasta = false ∧ (sep = seq ∨ qual = sep))) then
    (h.1, .error (.truncateFile h.1.data))
  else
    let fastx : Fastx := ⟨head, des, seq, sep, qual, h.1.data⟩
    if is_fasta = true ∧ fastx.validate_fasta = false then
      (h.1, .error (.invalidFasta fastx.head))
    else if ¬ (is_fasta = true ∨ fastx.validate_fastq = true) then
      (h.1, .error (.invalidFastq fastx.head))
    else
      (h.1, .ok (some fastx))

/-- Body of `Reader::iter_record` once the header line is in `data`
(`des` is the value returned by the initial `read_line`). -/
def iterAfterHead (s : RState) (des : Nat) : RState × Except ParseError (Option Fastx) :=
  if des = 0 then
    (s, .ok none)
  else if s.data.head? ≠ some 62 ∧ s.data.head? ≠ some 64 then
    (s, .error (.invalidFastx s.data))
  else
    let head := (position (fun x => isWs x) s.data).getD des
    let is_fasta := s.data.head? = some 62
    if is_fasta then
      -- `sep` and `qual` are initialized to `des` before `seq` is advanced
      -- and the fasta branch never updates them (record.rs:306-312).
      let p := readUntil 62 s
      finish p.1 true head des (des + p.2) des des
    else
      let p := readUntil 43 s
      let seq := des + p.2
      let q := readLine true p.1
      let sep := seq + q.2
      let r := readExact (seq - des) q.1
      let qual := sep + r.2
      finish r.1 false head des seq sep qual

/-- `Reader::iter_record`: clear the shared buffer, read the header line
(skipping blank lines), then parse one record. -/
def iter_record (s : RState) : RState × Except ParseError (Option Fastx) :=
  let p := readLine true ⟨s.input, []⟩
  iterAfterHead p.1 p.2

-- Model sanity checks on the concrete examples of the test suite.
-- ">1 rec1\nATGC" parses to head "1", des " rec1", seq "ATGC"
-- (the unused `_sep`/`_qual` fields keep their initial value `_des`).
example :
    (iter_record ⟨[62, 49, 32, 114, 101, 99, 49, 10, 65, 84, 71, 67], []⟩).2 =
      .ok (some ⟨2, 7, 11, 7, 7, [62, 49, 32, 114, 101, 99, 49, 65, 84, 71, 67]⟩) := by
  decide

-- "@1 r\nAC\n+\nII\n" parses to a fastq record with seq "AC", qual "II".
example :
    (iter_record ⟨[64, 49, 32, 114, 10, 65, 67, 10, 43, 10, 73, 73, 10], []⟩).2 =
      .ok (some ⟨2, 4, 6, 7, 9, [64, 49, 32, 114, 65, 67, 43, 73, 73]⟩) := by
  decide

/-! ### Helper lemmas about the scanning primitives -/

@[simp] theorem position_nil {p : Nat → Bool} : position p [] = none := rfl

@[simp] theorem position_cons {p : Nat → Bool} {b : Nat} {bs : List Nat} :
    position p (b :: bs) = if p b then some 0 else (position p bs).map (· + 1) := rfl

theorem position_eq_some_lt {p : Nat → Bool} {l : List Nat} {i : Nat}
    (h : position p l = some i) : i < l.length := by
  induction l generalizing i with
  | nil => simp at h
  | cons b bs ih =>
    by_cases hb : p b
    · simp [hb] at h
      simp [← h]
    · simp [hb] at h
      obtain ⟨j, hj, rfl⟩ := h
      have := ih hj
      simp
      omega

theorem position_none_of_all {p : Nat → Bool} {l : List Nat}
    (h : ∀ b ∈ l, p b = false) : position p l = none := by
  induction l with
  | nil => rfl
  | cons b bs ih =>
    simp [h b (by simp), ih (fun x hx => h x (by simp [hx]))]

theorem position_append_stop {p : Nat → Bool} {A B : List Nat} {c : Nat}
    (hA : ∀ b ∈ A, p b = false) (hc : p c = true) :
    position p (A ++ c :: B) = some A.length := by
  induction A with
  | nil => simp [hc]
  | cons a as ih =>
    have ha : p a = false := hA a (by simp)
    simp only [List.cons_append, position_cons, ha]
    rw [if_neg (by simp), ih (fun x hx => hA x (by simp [hx]))]
    simp

theorem takeWhile_append_stop {A B : List Nat}
    (hA : ∀ b ∈ A, b ≠ 10) :
    (A ++ 10 :: B).takeWhile (fun x => decide (x ≠ 10)) = A := by
  induction A with
  | nil => simp
  | cons a as ih =>
    have ha : a ≠ 10 := hA a (by simp)
    simp only [List.cons_append, List.takeWhile_cons, decide_eq_true_eq]
    rw [if_pos ha, ih (fun x hx => hA x (by simp [hx]))]

theorem takeWhile_all {A : List Nat} (hA : ∀ b ∈ A, b ≠ 10) :
    A.takeWhile (fun x => decide (x ≠ 10)) = A := by
  induction A with
  | nil => simp
  | cons a as ih =>
    have ha : a ≠ 10 := hA a (by simp)
    simp only [List.takeWhile_cons, decide_eq_true_eq]
    rw [if_pos ha, ih (fun x hx => hA x (by simp [hx]))]

theorem drop_append_cons {A B : List Nat} {c : Nat} :
    (A ++ c :: B).drop (A.length + 1) = B := by
  have h1 : A ++ c :: B = (A ++ [c]) ++ B := by simp
  have hlen : (A ++ [c]).length = A.length + 1 := by simp
  rw [h1, ← hlen, List.drop_left]

theorem exactEnd_le_length {l : List Nat} {n k : Nat}
    (h : exactEnd l n = some k) : k ≤ l.length := by
  induction l generalizing n k with
  | nil =>
    cases n with
    | zero => simp [exactEnd] at h; omega
    | succ m => simp [exactEnd] at h
  | cons b bs ih =>
    cases n with
    | zero => simp [exactEnd] at h; omega
    | succ m =>
      by_cases hb : b = 10
      · simp [exactEnd, hb] at h
        obtain ⟨j, hj, rfl⟩ := h
        have := ih hj
        simp; omega
      · simp [exactEnd, hb] at h
        obtain ⟨j, hj, rfl⟩ := h
        have := ih hj
        simp; omega

theorem exactEnd_take_filter {l : List Nat} {n k : Nat}
    (h : exactEnd l n = some k) :
    ((l.take k).filter (fun b => b ≠ 10)).length = n := by
  induction l generalizing n k with
  | nil =>
    cases n with
    | zero => simp [exactEnd] at h; simp [← h]
    | succ m => simp [exactEnd] at h
  | cons b bs ih =>
    cases n with
    | zero =>
      simp [exactEnd] at h
      simp [← h]
    | succ m =>
      by_cases hb : b = 10
      · simp [exactEnd, hb] at h
        obtain ⟨j, hj, rfl⟩ := h
        have := ih hj
        simpa [hb] using this
      · simp [exactEnd, hb] at h
        obtain ⟨j, hj, rfl⟩ := h
        have := ih hj
        simpa [hb] using this

theorem exactEnd_of_count {l : List Nat} {n : Nat}
    (h : (l.filter (fun b => b ≠ 10)).length = n) :
    ∃ k, exactEnd l n = some k ∧ k ≤ l.length ∧ ∀ b ∈ l.drop k, b = 10 := by
  induction l generalizing n with
  | nil =>
    have : n = 0 := by simpa using h.symm
    exact ⟨0, by simp [this, exactEnd], by simp, by simp⟩
  | cons b bs ih =>
    by_cases hb : b = 10
    · subst hb
      have h' : (bs.filter (fun x => x ≠ 10)).length = n := by simpa using h
      obtain ⟨k, hk, hkle, hall⟩ := ih h'
      cases n with
      | zero =>
        refine ⟨0, by simp [exactEnd], by simp, ?_⟩
        intro x hx
        simp only [List.drop_zero] at hx
        rcases List.mem_cons.mp hx with hx | hx
        · exact hx
        · have hk0 : exactEnd bs 0 = some 0 := by simp [exactEnd]
          rw [hk0] at hk
          have : k = 0 := by exact (Option.some_inj.mp hk).symm
          subst this
          exact hall x (by simpa using hx)
      | succ m =>
        refine ⟨k + 1, by simp [exactEnd, hk], by simp; omega, ?_⟩
        intro x hx
        exact hall x (by simpa using hx)
    · have hb' : b ≠ 10 := hb
      cases n with
      | zero => simp [hb'] at h
      | succ m =>
        have h' : (bs.filter (fun x => x ≠ 10)).length = m := by
          simp only [List.filter_cons, decide_eq_true_eq, if_pos hb', List.length_cons] at h
          omega
        obtain ⟨k, hk, hkle, hall⟩ := ih h'
        refine ⟨k + 1, by simp [exactEnd, hb', hk], by simp; omega, ?_⟩
        intro x hx
        exact hall x (by simpa using hx)

theorem exactEnd_append {l m : List Nat} {n k : Nat}
    (h : exactEnd l n = some k) : exactEnd (l ++ m) n = some k := by
  induction l generalizing n k with
  | nil =>
    cases n with
    | zero => simp [exactEnd] at h; simp [← h, exactEnd]
    | succ j => simp [exactEnd] at h
  | cons b bs ih =>
    cases n with
    | zero => simp [exactEnd] at h; simp [← h, exactEnd]
    | succ j =>
      by_cases hb : b = 10
      · simp [exactEnd, hb] at h ⊢
        obtain ⟨i, hi, rfl⟩ := h
        exact ⟨i, ih hi, rfl⟩
      · simp [exactEnd, hb] at h ⊢
        obtain ⟨i, hi, rfl⟩ := h
        exact ⟨i, ih hi, rfl⟩

theorem exactEnd_none_of_count_lt {l : List Nat} {n : Nat}
    (h : (l.filter (fun b => b ≠ 10)).length < n) : exactEnd l n = none := by
  induction l generalizing n with
  | nil =>
    cases n with
    | zero => simp at h
    | succ m => simp [exactEnd]
  | cons b bs ih =>
    cases n with
    | zero => simp at h
    | succ m =>
      by_cases hb : b = 10
      · have h' : (bs.filter (fun x => x ≠ 10)).length < m + 1 := by simpa [hb] using h
        simp [exactEnd, hb, ih h']
      · have h' : (bs.filter (fun x => x ≠ 10)).length < m := by
          simp only [List.filter_cons, decide_eq_true_eq, if_pos hb, List.length_cons] at h
          omega
        simp [exactEnd, hb, ih h']

/-! ### Data-extension facts for the read primitives -/

theorem head?_append_left {A B : List Nat} (h : A ≠ []) : (A ++ B).head? = A.head? := by
  cases A with
  | nil => exact absurd rfl h
  | cons a as => simp

theorem hasDataLeft_data (s : RState) : (hasDataLeft s).1.data = s.data := by
  unfold hasDataLeft
  split <;> rfl

theorem readLine_data (sk : Bool) (s : RState) :
    (readLine sk s).1.data = s.data ++ (readLineAux sk s.input).2 := rfl

theorem readLine_count (sk : Bool) (s : RState) :
    (readLine sk s).2 = (readLineAux sk s.input).2.length := rfl

theorem readUntil_data (delim : Nat) (s : RState) :
    ∃ a, (readUntil delim s).1.data = s.data ++ a ∧ a.length = (readUntil delim s).2 := by
  unfold readUntil
  split <;> exact ⟨_, rfl, rfl⟩

theorem readExact_data (len : Nat) (s : RState) :
    ∃ a, (readExact len s).1.data = s.data ++ a ∧ a.length = (readExact len s).2 := by
  unfold readExact
  split
  · next k hk => exact ⟨_, rfl, exactEnd_take_filter hk⟩
  · exact ⟨_, rfl, rfl⟩

/-! ### Shape of a successfully returned record -/

theorem finish_ok_shape {s : RState} {isf : Bool} {h d sq sp q : Nat} {s' : RState} {fx : Fastx}
    (hres : finish s isf h d sq sp q = (s', .ok (some fx))) :
    fx = ⟨h, d, sq, sp, q, s.data⟩ ∧
    (isf = true → fx.validate_fasta = true) ∧
    (isf = false → fx.validate_fastq = true) := by
  have hdata := hasDataLeft_data s
  unfold finish at hres
  dsimp only at hres
  split at hres
  · simp at hres
  · split at hres
    · simp at hres
    · split at hres
      · simp at hres
      · next h2 h3 =>
        have hfx : fx = ⟨h, d, sq, sp, q, (hasDataLeft s).1.data⟩ := by
          have := congrArg Prod.snd hres
          simp at this
          exact this.symm
        refine ⟨by rw [hfx, hdata], ?_, ?_⟩
        · intro hisf
          subst hisf
          by_cases hv : Fastx.validate_fasta ⟨h, d, sq, sp, q, (hasDataLeft s).1.data⟩ = true
          · rw [hfx]; exact hv
          · exact absurd ⟨rfl, by simpa using hv⟩ h2
        · intro hisf
          subst hisf
          have h3' := not_not.mp h3
          rw [hfx]
          rcases h3' with hc | hc
          · exact absurd hc (by simp)
          · exact hc

theorem iter_ok_shape {s s' : RState} {fx : Fastx}
    (hok : iter_record s = (s', .ok (some fx))) :
    fx._head ≤ fx._des ∧ fx._des ≤ fx._seq ∧ fx._seq ≤ fx._data.length ∧
    (fx._data.head? = some 62 → fx._sep = fx._des ∧ fx._qual = fx._des) ∧
    (fx._data.head? ≠ some 62 → fx._data.head? = some 64 ∧ fx.validate_fastq = true ∧
      fx._seq ≤ fx._sep ∧ fx._sep ≤ fx._qual ∧ fx._qual = fx._data.length) := by
  have hok' : iterAfterHead ⟨(readLineAux true s.input).1, [] ++ (readLineAux true s.input).2⟩
      ((readLineAux true s.input).2.length) = (s', .ok (some fx)) := hok
  simp only [List.nil_append] at hok'
  set R := (readLineAux true s.input).1 with hR
  set L := (readLineAux true s.input).2 with hL
  unfold iterAfterHead at hok'
  dsimp only at hok'
  split at hok'
  · simp at hok'
  · next hdes =>
    split at hok'
    · simp at hok'
    · next hhead =>
      have hLne : L ≠ [] := by
        intro hnil
        rw [hnil] at hdes
        exact hdes rfl
      split at hok'
      · next hfasta =>
        obtain ⟨hfx, hva, -⟩ := finish_ok_shape hok'
        obtain ⟨a, hda, hlen⟩ := readUntil_data 62 ⟨R, L⟩
        have hdata : fx._data = L ++ a := by rw [hfx]; exact hda
        have hdlen : fx._data.length = L.length + (readUntil 62 ⟨R, L⟩).2 := by
          rw [hdata]
          simp [hlen]
        have hh62 : fx._data.head? = some 62 := by
          rw [hdata, head?_append_left hLne]
          exact hfasta
        refine ⟨?_, ?_, ?_, ?_, ?_⟩
        · rw [hfx]
          dsimp only
          cases hpos : position (fun x => isWs x) L with
          | none => simp [hpos]
          | some i =>
            have := position_eq_some_lt hpos
            simp [hpos]
            omega
        · rw [hfx]; dsimp only; omega
        · rw [hfx] at hdlen ⊢
          dsimp only at hdlen ⊢
          omega
        · intro _
          rw [hfx]
          exact ⟨rfl, rfl⟩
        · intro hne
          exact absurd hh62 hne
      · next hq =>
        have h64 : L.head? = some 64 := by
          rw [not_and_or, not_not, not_not] at hhead
          rcases hhead with hc | hc
          · exact absurd hc hq
          · exact hc
        obtain ⟨hfx, -, hvq⟩ := finish_ok_shape hok'
        obtain ⟨a1, hd1, hl1⟩ := readUntil_data 43 ⟨R, L⟩
        obtain ⟨a3, hd3, hl3⟩ :=
          readExact_data (L.length + (readUntil 43 ⟨R, L⟩).2 - L.length)
            (readLine true (readUntil 43 ⟨R, L⟩).1).1
        have hd2 := readLine_data true (readUntil 43 ⟨R, L⟩).1
        have hl2 := readLine_count true (readUntil 43 ⟨R, L⟩).1
        have hdata : fx._data =
            L ++ a1 ++ (readLineAux true (readUntil 43 ⟨R, L⟩).1.input).2 ++ a3 := by
          rw [hfx]
          dsimp only
          rw [hd3, hd2, hd1]
        have hdlen : fx._data.length =
            L.length + (readUntil 43 ⟨R, L⟩).2 + (readLine true (readUntil 43 ⟨R, L⟩).1).2 +
              (readExact (L.length + (readUntil 43 ⟨R, L⟩).2 - L.length)
                (readLine true (readUntil 43 ⟨R, L⟩).1).1).2 := by
          rw [hdata]
          simp [hl1, hl3, hl2]
          omega
        have hh64 : fx._data.head? = some 64 := by
          rw [hdata]
          rw [head?_append_left, head?_append_left, head?_append_left hLne]
          · exact h64
          · intro hc
            rw [List.append_eq_nil] at hc
            exact hLne hc.1
          · intro hc
            rw [List.append_eq_nil, List.append_eq_nil] at hc
            exact hLne hc.1.1
        refine ⟨?_, ?_, ?_, ?_, ?_⟩
        · rw [hfx]
          dsimp only
          cases hpos : position (fun x => isWs x) L with
          | none => simp [hpos]
          | some i =>
            have := position_eq_some_lt hpos
            simp [hpos]
            omega
        · rw [hfx]; dsimp only; omega
        · rw [hfx] at hdlen ⊢
          dsimp only at hdlen ⊢
          omega
        · intro h62
          rw [hh64] at h62
          simp at h62
        · intro _
          refine ⟨hh64, hvq rfl, ?_, ?_, ?_⟩
          · rw [hfx]; dsimp only; omega
          · rw [hfx]; dsimp only; omega
          · rw [hfx] at hdlen ⊢
            dsimp only at hdlen ⊢
            omega

/-- C1: whenever `Reader::iter_record` returns `Ok(Some(record))` for a
long-form record (buffer byte 0 is `'@'`), the parsed quality length
equals the parsed sequence length, which equals `record.len()` — for all
inputs, including multi-line sequence and quality bodies. -/
theorem c1_long_form_qual_eq_seq {s s' : RState} {fx : Fastx}
    (hok : iter_record s = (s', .ok (some fx))) (hq : fx._data.head? = some 64) :
    fx.qual.length = fx.seq.length ∧ fx.seq.length = fx.len := by
  obtain ⟨h1, h2, h3, h62, h64⟩ := iter_ok_shape hok
  have hne : fx._data.head? ≠ some 62 := by rw [hq]; simp
  obtain ⟨-, hvq, h4, h5, hqlen⟩ := h64 hne
  simp only [Fastx.validate_fastq, Fastx.is_fastq, Fastx.is_empty, Fastx.len,
    Bool.and_eq_true, Bool.not_eq_true', decide_eq_false_iff_not, decide_eq_true_eq,
    beq_iff_eq] at hvq
  obtain ⟨⟨⟨-, hlen0⟩, heq⟩, -⟩ := hvq
  have hlen0' : fx._seq - fx._des ≠ 0 := by
    intro hc
    rw [hc] at hlen0
    simp at hlen0
  have hseqle : fx._seq ≤ fx._data.length := h3
  have hseq : fx.seq.length = fx._seq - fx._des := by
    unfold Fastx.seq
    rw [List.length_drop, List.length_take]
    omega
  have hsepq : fx._sep < fx._qual := by omega
  have hqual : fx.qual.length = fx._qual - fx._sep := by
    unfold Fastx.qual
    rw [if_pos hsepq, List.length_drop, List.length_take]
    omega
  refine ⟨?_, ?_⟩
  · rw [hseq, hqual]
    omega
  · rw [hseq]
    rfl

/-- Witness for C1 on the input `"@1 r\nAC\n+\nII\n"`. -/
theorem c1_long_form_qual_eq_seq_witness :
    iter_record ⟨[64, 49, 32, 114, 10, 65, 67, 10, 43, 10, 73, 73, 10], []⟩ =
      (⟨[], [64, 49, 32, 114, 65, 67, 43, 73, 73]⟩,
        .ok (some ⟨2, 4, 6, 7, 9, [64, 49, 32, 114, 65, 67, 43, 73, 73]⟩)) ∧
    (⟨2, 4, 6, 7, 9, [64, 49, 32, 114, 65, 67, 43, 73, 73]⟩ : Fastx).qual.length =
      (⟨2, 4, 6, 7, 9, [64, 49, 32, 114, 65, 67, 43, 73, 73]⟩ : Fastx).seq.length ∧
    (⟨2, 4, 6, 7, 9, [64, 49, 32, 114, 65, 67, 43, 73, 73]⟩ : Fastx).seq.length =
      (⟨2, 4, 6, 7, 9, [64, 49, 32, 114, 65, 67, 43, 73, 73]⟩ : Fastx).len :=
  ⟨by decide,
    @c1_long_form_qual_eq_seq ⟨[64, 49, 32, 114, 10, 65, 67, 10, 43, 10, 73, 73, 10], []⟩
      ⟨[], [64, 49, 32, 114, 65, 67, 43, 73, 73]⟩
      ⟨2, 4, 6, 7, 9, [64, 49, 32, 114, 65, 67, 43, 73, 73]⟩ (by decide) (by decide)⟩

/-- C4 counterexample: the claimed chain `_seq ≤ _sep ≤ _qual` and the
collapse `separator_end = quality_end = sequence_end` fail for short-form
records.  `record.rs` initializes `sep` and `qual` to `des` before `seq`
is advanced and the fasta branch never updates them, so on
`">1 rec1\nATGC"` the returned record has `_sep = _qual = _des = 7` while
`_seq = 11`: the separator and quality offsets sit at the description
end, strictly below the sequence end. -/
theorem c4_offsets_monotone_counterexample :
    (iter_record ⟨[62, 49, 32, 114, 101, 99, 49, 10, 65, 84, 71, 67], []⟩).2 =
      .ok (some ⟨2, 7, 11, 7, 7, [62, 49, 32, 114, 101, 99, 49, 65, 84, 71, 67]⟩) ∧
    ¬ ((⟨2, 7, 11, 7, 7, [62, 49, 32, 114, 101, 99, 49, 65, 84, 71, 67]⟩ : Fastx)._seq ≤
        (⟨2, 7, 11, 7, 7, [62, 49, 32, 114, 101, 99, 49, 65, 84, 71, 67]⟩ : Fastx)._sep) ∧
    (⟨2, 7, 11, 7, 7, [62, 49, 32, 114, 101, 99, 49, 65, 84, 71, 67]⟩ : Fastx)._sep ≠
      (⟨2, 7, 11, 7, 7, [62, 49, 32, 114, 101, 99, 49, 65, 84, 71, 67]⟩ : Fastx)._seq ∧
    (⟨2, 7, 11, 7, 7, [62, 49, 32, 114, 101, 99, 49, 65, 84, 71, 67]⟩ : Fastx)._sep =
      (⟨2, 7, 11, 7, 7, [62, 49, 32, 114, 101, 99, 49, 65, 84, 71, 67]⟩ : Fastx)._des := by
  decide

/-- C4 as amended: every record returned by `Reader::iter_record`
satisfies `0 ≤ _head ≤ _des ≤ _seq ≤ data.len()`; for a short-form
(`'>'`) record the separator and quality offsets both stay at the
description end (`_sep = _qual = _des`), and for a long-form (`'@'`)
record the full chain `_seq ≤ _sep ≤ _qual ≤ data.len()` holds. -/
theorem c4_offsets_monotone_amended {s s' : RState} {fx : Fastx}
    (hok : iter_record s = (s', .ok (some fx))) :
    (0 ≤ fx._head ∧ fx._head ≤ fx._des ∧ fx._des ≤ fx._seq ∧ fx._seq ≤ fx._data.length) ∧
    (fx._data.head? = some 62 → fx._sep = fx._des ∧ fx._qual = fx._des) ∧
    (fx._data.head? ≠ some 62 → fx._seq ≤ fx._sep ∧ fx._sep ≤ fx._qual ∧
      fx._qual ≤ fx._data.length) := by
  obtain ⟨h1, h2, h3, h62, h64⟩ := iter_ok_shape hok
  refine ⟨⟨Nat.zero_le _, h1, h2, h3⟩, h62, fun hne => ?_⟩
  obtain ⟨-, -, h4, h5, h6⟩ := h64 hne
  exact ⟨h4, h5, le_of_eq h6⟩

/-- Witness for the amended C4 on the short-form input `">1 rec1\nATGC"`
and the long-form input `"@1 r\nAC\n+\nII\n"`. -/
theorem c4_offsets_monotone_amended_witness :
    (iter_record ⟨[62, 49, 32, 114, 101, 99, 49, 10, 65, 84, 71, 67], []⟩ =
      (⟨[], [62, 49, 32, 114, 101, 99, 49, 65, 84, 71, 67]⟩,
        .ok (some ⟨2, 7, 11, 7, 7, [62, 49, 32, 114, 101, 99, 49, 65, 84, 71, 67]⟩)) ∧
      ((0 ≤ 2 ∧ 2 ≤ 7 ∧ 7 ≤ 11 ∧
          11 ≤ [62, 49, 32, 114, 101, 99, 49, 65, 84, 71, 67].length) ∧
        ([62, 49, 32, 114, 101, 99, 49, 65, 84, 71, 67].head? = some 62 → 7 = 7 ∧ 7 = 7) ∧
        ([62, 49, 32, 114, 101, 99, 49, 65, 84, 71, 67].head? ≠ some 62 →
          11 ≤ 7 ∧ 7 ≤ 7 ∧ 7 ≤ [62, 49, 32, 114, 101, 99, 49, 65, 84, 71, 67].length))) ∧
    (iter_record ⟨[64, 49, 32, 114, 10, 65, 67, 10, 43, 10, 73, 73, 10], []⟩ =
      (⟨[], [64, 49, 32, 114, 65, 67, 43, 73, 73]⟩,
        .ok (some ⟨2, 4, 6, 7, 9, [64, 49, 32, 114, 65, 67, 43, 73, 73]⟩)) ∧
      ((0 ≤ 2 ∧ 2 ≤ 4 ∧ 4 ≤ 6 ∧ 6 ≤ [64, 49, 32, 114, 65, 67, 43, 73, 73].length) ∧
        ([64, 49, 32, 114, 65, 67, 43, 73, 73].head? = some 62 → 7 = 4 ∧ 9 = 4) ∧
        ([64, 49, 32, 114, 65, 67, 43, 73, 73].head? ≠ some 62 →
          6 ≤ 7 ∧ 7 ≤ 9 ∧ 9 ≤ [64, 49, 32, 114, 65, 67, 43, 73, 73].length))) :=
  ⟨⟨by decide,
      @c4_offsets_monotone_amended ⟨[62, 49, 32, 114, 101, 99, 49, 10, 65, 84, 71, 67], []⟩
        ⟨[], [62, 49, 32, 114, 101, 99, 49, 65, 84, 71, 67]⟩
        ⟨2, 7, 11, 7, 7, [62, 49, 32, 114, 101, 99, 49, 65, 84, 71, 67]⟩ (by decide)⟩,
    ⟨by decide,
      @c4_offsets_monotone_amended ⟨[64, 49, 32, 114, 10, 65, 67, 10, 43, 10, 73, 73, 10], []⟩
        ⟨[], [64, 49, 32, 114, 65, 67, 43, 73, 73]⟩
        ⟨2, 4, 6, 7, 9, [64, 49, 32, 114, 65, 67, 43, 73, 73]⟩ (by decide)⟩⟩

/-- The bytes of `">1 rec1\nATGC\n>2 rec2\nATGC"`. -/
def c9input : List Nat :=
  [62, 49, 32, 114, 101, 99, 49, 10, 65, 84, 71, 67, 10,
   62, 50, 32, 114, 101, 99, 50, 10, 65, 84, 71, 67]

/-- C9 counterexample: on `">1 rec1\nATGC\n>2 rec2\nATGC"` the first
record's `des()` is `" rec1"` — the description slice starts at the
whitespace byte that ends the identifier — not `"rec1"` as the claim
states. -/
theorem c9_des_keeps_leading_space_counterexample :
    (iter_record ⟨c9input, []⟩).2 =
      .ok (some ⟨2, 7, 11, 7, 7, [62, 49, 32, 114, 101, 99, 49, 65, 84, 71, 67]⟩) ∧
    (⟨2, 7, 11, 7, 7, [62, 49, 32, 114, 101, 99, 49, 65, 84, 71, 67]⟩ : Fastx).des =
      [32, 114, 101, 99, 49] ∧
    (⟨2, 7, 11, 7, 7, [62, 49, 32, 114, 101, 99, 49, 65, 84, 71, 67]⟩ : Fastx).des ≠
      [114, 101, 99, 49] := by
  decide

/-- C9 as amended: `">1 rec1\nATGC\n>2 rec2\nATGC"` parses to exactly two
records with `head()` `"1"`/`"2"`, `des()` `" rec1"`/`" rec2"` (leading
space included), `seq()` `"ATGC"` each, and total base count 8. -/
theorem c9_two_records_amended :
    (iter_record ⟨c9input, []⟩).2 =
      .ok (some ⟨2, 7, 11, 7, 7, [62, 49, 32, 114, 101, 99, 49, 65, 84, 71, 67]⟩) ∧
    (iter_record (iter_record ⟨c9input, []⟩).1).2 =
      .ok (some ⟨2, 7, 11, 7, 7, [62, 50, 32, 114, 101, 99, 50, 65, 84, 71, 67]⟩) ∧
    (iter_record (iter_record (iter_record ⟨c9input, []⟩).1).1).2 = .ok none ∧
    (⟨2, 7, 11, 7, 7, [62, 49, 32, 114, 101, 99, 49, 65, 84, 71, 67]⟩ : Fastx).head = [49] ∧
    (⟨2, 7, 11, 7, 7, [62, 50, 32, 114, 101, 99, 50, 65, 84, 71, 67]⟩ : Fastx).head = [50] ∧
    (⟨2, 7, 11, 7, 7, [62, 49, 32, 114, 101, 99, 49, 65, 84, 71, 67]⟩ : Fastx).des =
      [32, 114, 101, 99, 49] ∧
    (⟨2, 7, 11, 7, 7, [62, 50, 32, 114, 101, 99, 50, 65, 84, 71, 67]⟩ : Fastx).des =
      [32, 114, 101, 99, 50] ∧
    (⟨2, 7, 11, 7, 7, [62, 49, 32, 114, 101, 99, 49, 65, 84, 71, 67]⟩ : Fastx).seq =
      [65, 84, 71, 67] ∧
    (⟨2, 7, 11, 7, 7, [62, 50, 32, 114, 101, 99, 50, 65, 84, 71, 67]⟩ : Fastx).seq =
      [65, 84, 71, 67] ∧
    (⟨2, 7, 11, 7, 7, [62, 49, 32, 114, 101, 99, 49, 65, 84, 71, 67]⟩ : Fastx).len +
      (⟨2, 7, 11, 7, 7, [62, 50, 32, 114, 101, 99, 50, 65, 84, 71, 67]⟩ : Fastx).len = 8 := by
  decide

/-- C2 counterexample: `"@1 r\nAC\n+\nIIII"` holds a structurally complete
long-form record whose quality section (`"IIII"`, length 4) differs from
its sequence section (`"AC"`, length 2), yet `iter_record` does not
report `InvalidFastq`: the first call succeeds (with quality `"II"`
stolen from the section) and the next call fails with `InvalidFastx`. -/
theorem c2_qual_mismatch_counterexample :
    (iter_record ⟨[64, 49, 32, 114, 10, 65, 67, 10, 43, 10, 73, 73, 73, 73], []⟩).2 =
      .ok (some ⟨2, 4, 6, 7, 9, [64, 49, 32, 114, 65, 67, 43, 73, 73]⟩) ∧
    (iter_record
        (iter_record ⟨[64, 49, 32, 114, 10, 65, 67, 10, 43, 10, 73, 73, 73, 73], []⟩).1).2 =
      .error (.invalidFastx [73, 73]) := by
  decide

/-- C6 counterexample: on `"@1 ab\nAT+G\n+\nIIII\n"` the `'+'` in the
middle of the first body line terminates sequence accumulation: the
parsed sequence is `"AT"`, not the full line `"AT+G"` that precedes the
first line starting with `'+'`. -/
theorem c6_plus_midline_counterexample :
    (iter_record ⟨[64, 49, 32, 97, 98, 10, 65, 84, 43, 71, 10, 43, 10, 73, 73, 73, 73, 10],
        []⟩).2 =
      .ok (some ⟨2, 5, 7, 9, 11, [64, 49, 32, 97, 98, 65, 84, 43, 71, 43, 73]⟩) ∧
    (⟨2, 5, 7, 9, 11, [64, 49, 32, 97, 98, 65, 84, 43, 71, 43, 73]⟩ : Fastx).seq = [65, 84] ∧
    (⟨2, 5, 7, 9, 11, [64, 49, 32, 97, 98, 65, 84, 43, 71, 43, 73]⟩ : Fastx).seq ≠
      [65, 84, 43, 71] := by
  decide

theorem readLineAux_line {t : Nat} {hd rest : List Nat} (ht : t ≠ 10)
    (hhd : ∀ b ∈ hd, b ≠ 10) :
    readLineAux true (t :: hd ++ 10 :: rest) = (rest, t :: hd) := by
  have hall : ∀ b ∈ t :: hd, b ≠ 10 := by
    intro b hb
    rcases List.mem_cons.mp hb with h | h
    · exact h ▸ ht
    · exact hhd b h
  have hline : List.takeWhile (fun x => decide (x ≠ 10)) (t :: hd ++ 10 :: rest) = t :: hd := by
    have := @takeWhile_append_stop (t :: hd) rest hall
    simpa using this
  have hline' : List.takeWhile (fun x => decide (x ≠ 10)) (t :: (hd ++ 10 :: rest)) = t :: hd := by
    rw [← List.cons_append]
    exact hline
  have hdrop' : (t :: (hd ++ 10 :: rest)).drop ((t :: hd).length + 1) = rest := by
    rw [← List.cons_append]
    exact @drop_append_cons (t :: hd) rest 10
  unfold readLineAux
  simp only [List.cons_append]
  rw [if_neg ht, hline', hdrop']

theorem iter_record_header {hd rest d : List Nat} {t : Nat} (ht : t ≠ 10)
    (hhd : ∀ b ∈ hd, b ≠ 10) :
    iter_record ⟨t :: hd ++ 10 :: rest, d⟩ =
      iterAfterHead ⟨rest, t :: hd⟩ (hd.length + 1) := by
  unfold iter_record readLine
  dsimp only
  rw [readLineAux_line ht hhd]
  simp

/-- C6 as amended: in a long-form record the sequence body ends at the
first `'+'` byte of the post-header stream, wherever it occurs (mid-line
included); the parsed sequence is the non-newline bytes strictly before
that first `'+'`. -/
theorem c6_seq_stops_at_first_plus {hd rest d : List Nat} {s' : RState} {fx : Fastx}
    (hhd : ∀ b ∈ hd, b ≠ 10)
    (hok : iter_record ⟨64 :: hd ++ 10 :: rest, d⟩ = (s', .ok (some fx))) :
    fx.seq =
      (rest.take ((position (fun b => b = 43) rest).getD rest.length)).filter
        (fun b => b ≠ 10) := by
  rw [iter_record_header (by decide) hhd] at hok
  unfold iterAfterHead at hok
  dsimp only at hok
  rw [if_neg (by omega)] at hok
  simp only [List.head?_cons] at hok
  rw [if_neg (by simp)] at hok
  rw [if_neg (by simp)] at hok
  -- name the stages
  obtain ⟨a2, hd2, -⟩ :
      ∃ a, (readLine true (readUntil 43 ⟨rest, 64 :: hd⟩).1).1.data =
        (readUntil 43 ⟨rest, 64 :: hd⟩).1.data ++ a ∧
        a.length = (readLine true (readUntil 43 ⟨rest, 64 :: hd⟩).1).2 :=
    ⟨_, readLine_data true _, (readLine_count true _).symm⟩
  obtain ⟨a3, hd3, -⟩ := readExact_data
    (hd.length + 1 + (readUntil 43 ⟨rest, 64 :: hd⟩).2 - (hd.length + 1))
    (readLine true (readUntil 43 ⟨rest, 64 :: hd⟩).1).1
  obtain ⟨hfx, -, -⟩ := finish_ok_shape hok
  -- the readUntil stage on the body
  cases hpos : position (fun b => b = 43) rest with
  | some k =>
    have hru : readUntil 43 ⟨rest, 64 :: hd⟩ =
        (⟨rest.drop k, (64 :: hd) ++ (rest.take k).filter (fun b => b ≠ 10)⟩,
          ((rest.take k).filter (fun b => b ≠ 10)).length) := by
      unfold readUntil
      dsimp only
      rw [hpos]
    rw [hru] at hfx hd2 hd3
    dsimp only at hfx hd2 hd3
    rw [hfx]
    unfold Fastx.seq
    dsimp only
    rw [hd3, hd2]
    have hlen : ((64 :: hd) ++ (rest.take k).filter (fun b => b ≠ 10)).length =
        hd.length + 1 + ((rest.take k).filter (fun b => b ≠ 10)).length := by
      simp
      omega
    rw [List.append_assoc, List.append_assoc]
    rw [← List.append_assoc ((64 : Nat) :: hd)]
    rw [List.take_left' (by rw [hlen])]
    have : ((64 : Nat) :: hd).length = hd.length + 1 := by simp
    rw [List.drop_left' this]
    simp [hpos]
  | none =>
    have hru : readUntil 43 ⟨rest, 64 :: hd⟩ =
        (⟨[], (64 :: hd) ++ rest.filter (fun b => b ≠ 10)⟩,
          (rest.filter (fun b => b ≠ 10)).length) := by
      unfold readUntil
      dsimp only
      rw [hpos]
    rw [hru] at hfx hd2 hd3
    dsimp only at hfx hd2 hd3
    rw [hfx]
    unfold Fastx.seq
    dsimp only
    rw [hd3, hd2]
    have hlen : ((64 :: hd) ++ rest.filter (fun b => b ≠ 10)).length =
        hd.length + 1 + (rest.filter (fun b => b ≠ 10)).length := by
      simp
      omega
    rw [List.append_assoc, List.append_assoc]
    rw [← List.append_assoc ((64 : Nat) :: hd)]
    rw [List.take_left' (by rw [hlen])]
    have : ((64 : Nat) :: hd).length = hd.length + 1 := by simp
    rw [List.drop_left' this]
    simp [hpos]

/-- Witness for the amended C6 on `"@x\nAC\n+\nII\n"`. -/
theorem c6_seq_stops_at_first_plus_witness :
    (∀ b ∈ [120], b ≠ 10) ∧
    iter_record ⟨64 :: [120] ++ 10 :: [65, 67, 10, 43, 10, 73, 73, 10], []⟩ =
      (⟨[], [64, 120, 65, 67, 43, 73, 73]⟩,
        .ok (some ⟨2, 2, 4, 5, 7, [64, 120, 65, 67, 43, 73, 73]⟩)) ∧
    (⟨2, 2, 4, 5, 7, [64, 120, 65, 67, 43, 73, 73]⟩ : Fastx).seq =
      ([65, 67, 10, 43, 10, 73, 73, 10].take
          ((position (fun b => b = 43) [65, 67, 10, 43, 10, 73, 73, 10]).getD 8)).filter
        (fun b => b ≠ 10) :=
  ⟨by decide, by decide,
    @c6_seq_stops_at_first_plus [120] [65, 67, 10, 43, 10, 73, 73, 10] []
      ⟨[], [64, 120, 65, 67, 43, 73, 73]⟩
      ⟨2, 2, 4, 5, 7, [64, 120, 65, 67, 43, 73, 73]⟩ (by decide) (by decide)⟩

/-! ### Symbolic evaluation of the parsing stages on structured inputs -/

theorem hasDataLeft_nil {D : List Nat} : hasDataLeft ⟨[], D⟩ = (⟨[], D⟩, false) := by
  unfold hasDataLeft
  simp

theorem readUntil_body {bodyCore R D : List Nat} (hbody : ∀ b ∈ bodyCore, b ≠ 43) :
    readUntil 43 ⟨bodyCore ++ 10 :: 43 :: R, D⟩ =
      (⟨43 :: R, D ++ bodyCore.filter (fun b => b ≠ 10)⟩,
        (bodyCore.filter (fun b => b ≠ 10)).length) := by
  have hsplit : bodyCore ++ 10 :: 43 :: R = (bodyCore ++ [10]) ++ 43 :: R := by simp
  have hclean : ∀ b ∈ bodyCore ++ [10], (fun b => decide (b = 43)) b = false := by
    intro b hb
    rcases List.mem_append.mp hb with h | h
    · simpa using hbody b h
    · simp at h
      simp [h]
  have hpos : position (fun b => b = 43) (bodyCore ++ 10 :: 43 :: R) =
      some (bodyCore.length + 1) := by
    rw [hsplit]
    have := @position_append_stop (fun b => decide (b = 43)) (bodyCore ++ [10]) R 43
      hclean (by simp)
    simpa using this
  have hlen : bodyCore.length + 1 = (bodyCore ++ [10]).length := by simp
  have htake : (bodyCore ++ 10 :: 43 :: R).take (bodyCore.length + 1) = bodyCore ++ [10] := by
    rw [hsplit, hlen, List.take_left]
  have hdrop : (bodyCore ++ 10 :: 43 :: R).drop (bodyCore.length + 1) = 43 :: R := by
    rw [hsplit, hlen, List.drop_left]
  unfold readUntil
  dsimp only
  rw [hpos]
  dsimp only
  rw [htake, hdrop]
  simp

theorem readLine_sep {sepRest Q D : List Nat} (hsep : ∀ b ∈ sepRest, b ≠ 10) :
    readLine true ⟨43 :: (sepRest ++ 10 :: Q), D⟩ =
      (⟨Q, D ++ 43 :: sepRest⟩, sepRest.length + 1) := by
  have h' : readLineAux true (43 :: (sepRest ++ 10 :: Q)) = (Q, 43 :: sepRest) := by
    rw [← List.cons_append]
    exact @readLineAux_line 43 sepRest Q (by decide) hsep
  unfold readLine
  dsimp only
  rw [h']
  simp

theorem readExact_full {Q rest D : List Nat} {L : Nat}
    (hcount : (Q.filter (fun b => b ≠ 10)).length = L) :
    ∃ k, exactEnd Q L = some k ∧ k ≤ Q.length ∧ (∀ b ∈ Q.drop k, b = 10) ∧
      readExact L ⟨Q ++ rest, D⟩ =
        (⟨Q.drop k ++ rest, D ++ (Q.take k).filter (fun b => b ≠ 10)⟩, L) ∧
      readExact L ⟨Q, D⟩ = (⟨Q.drop k, D ++ (Q.take k).filter (fun b => b ≠ 10)⟩, L) := by
  obtain ⟨k, hk, hkle, hall⟩ := exactEnd_of_count hcount
  refine ⟨k, hk, hkle, hall, ?_, ?_⟩
  · unfold readExact
    dsimp only
    rw [exactEnd_append hk]
    dsimp only
    rw [List.take_append_of_le_length hkle, List.drop_append_of_le_length hkle]
  · unfold readExact
    dsimp only
    rw [hk]

theorem readExact_short {Q D : List Nat} {L : Nat}
    (hcount : (Q.filter (fun b => b ≠ 10)).length < L) :
    readExact L ⟨Q, D⟩ =
      (⟨[], D ++ Q.filter (fun b => b ≠ 10)⟩, (Q.filter (fun b => b ≠ 10)).length) := by
  unfold readExact
  dsimp only
  rw [exactEnd_none_of_count_lt hcount]

theorem iter_long_unfold {hd bodyCore sepRest Q d : List Nat}
    (hhd : ∀ b ∈ hd, b ≠ 10) (hbody : ∀ b ∈ bodyCore, b ≠ 43)
    (hsep : ∀ b ∈ sepRest, b ≠ 10) :
    iter_record ⟨64 :: hd ++ 10 :: (bodyCore ++ 10 :: 43 :: (sepRest ++ 10 :: Q)), d⟩ =
      finish
        (readExact ((bodyCore.filter (fun b => b ≠ 10)).length)
          ⟨Q, 64 :: hd ++ bodyCore.filter (fun b => b ≠ 10) ++ 43 :: sepRest⟩).1
        false ((position (fun x => isWs x) (64 :: hd)).getD (hd.length + 1)) (hd.length + 1)
        (hd.length + 1 + (bodyCore.filter (fun b => b ≠ 10)).length)
        (hd.length + 1 + (bodyCore.filter (fun b => b ≠ 10)).length + (sepRest.length + 1))
        (hd.length + 1 + (bodyCore.filter (fun b => b ≠ 10)).length + (sepRest.length + 1) +
          (readExact ((bodyCore.filter (fun b => b ≠ 10)).length)
            ⟨Q, 64 :: hd ++ bodyCore.filter (fun b => b ≠ 10) ++ 43 :: sepRest⟩).2) := by
  rw [iter_record_header (by decide) hhd]
  unfold iterAfterHead
  dsimp only
  rw [if_neg (by omega)]
  simp only [List.head?_cons]
  rw [if_neg (by simp)]
  rw [if_neg (by simp)]
  rw [readUntil_body hbody]
  dsimp only
  rw [readLine_sep hsep]
  dsimp only
  rw [Nat.add_sub_cancel_left]

theorem headIdx_ge_two {h0 : Nat} {hd' : List Nat} (hws : isWs h0 = false) :
    2 ≤ (position (fun x => isWs x) (64 :: h0 :: hd')).getD ((h0 :: hd').length + 1) := by
  have h64 : isWs 64 = false := by decide
  simp only [position_cons, h64, hws, if_neg]
  cases hpos : position (fun x => isWs x) hd' with
  | none => simp [hpos]
  | some i => simp [hpos]

theorem headIdx_le {h0 : Nat} {hd' : List Nat} :
    (position (fun x => isWs x) (64 :: h0 :: hd')).getD ((h0 :: hd').length + 1) ≤
      (h0 :: hd').length + 1 := by
  cases hpos : position (fun x => isWs x) (64 :: h0 :: hd') with
  | none => simp [hpos]
  | some i =>
    have := position_eq_some_lt hpos
    simp [hpos]
    simp at this
    omega

/-- C2 as amended: a long-form record whose quality section is cut short
by end of input — fewer non-newline quality bytes remain than the
sequence length, but at least one — makes `iter_record` report
`ParseError::InvalidFastq` carrying the identifier slice of the header. -/
theorem c2_qual_short_eof_invalid_fastq {h0 : Nat} {hd' bodyCore sepRest Q d : List Nat}
    (hws : isWs h0 = false) (hhd : ∀ b ∈ hd', b ≠ 10)
    (hbody : ∀ b ∈ bodyCore, b ≠ 43)
    (hsep : ∀ b ∈ sepRest, b ≠ 10)
    (hqpos : (Q.filter (fun b => b ≠ 10)).length ≠ 0)
    (hqlt : (Q.filter (fun b => b ≠ 10)).length < (bodyCore.filter (fun b => b ≠ 10)).length) :
    (iter_record
        ⟨64 :: (h0 :: hd') ++ 10 :: (bodyCore ++ 10 :: 43 :: (sepRest ++ 10 :: Q)), d⟩).2 =
      .error (.invalidFastq
        (((64 :: h0 :: hd').take
            ((position (fun x => isWs x) (64 :: h0 :: hd')).getD ((h0 :: hd').length + 1))).drop
          1)) := by
  have hhd0 : ∀ b ∈ h0 :: hd', b ≠ 10 := by
    intro b hb
    rcases List.mem_cons.mp hb with h | h
    · subst h
      intro hc
      subst hc
      simp [isWs] at hws
    · exact hhd b h
  rw [iter_long_unfold hhd0 hbody hsep]
  rw [readExact_short hqlt]
  dsimp only
  unfold finish
  dsimp only
  rw [hasDataLeft_nil]
  dsimp only
  have hhead2 := @headIdx_ge_two h0 hd' hws
  rw [if_neg ?hn]
  case hn =>
    intro hc
    rcases hc.2 with h | h | h
    · omega
    · omega
    · rcases h.2 with h | h
      · omega
      · omega
  rw [if_neg (by simp)]
  rw [if_pos ?hp]
  case hp =>
    intro hc
    rcases hc with h | h
    · simp at h
    · simp only [Fastx.validate_fastq, Fastx.is_fastq, Fastx.is_empty, Fastx.len,
        Bool.and_eq_true, beq_iff_eq, decide_eq_true_eq, Bool.not_eq_true'] at h
      obtain ⟨⟨⟨-, -⟩, heq⟩, -⟩ := h
      rw [Nat.add_sub_cancel_left] at heq
      have : ((h0 :: hd').length + 1 + (bodyCore.filter (fun b => b ≠ 10)).length +
          (sepRest.length + 1) + (Q.filter (fun b => b ≠ 10)).length) -
          ((h0 :: hd').length + 1 + (bodyCore.filter (fun b => b ≠ 10)).length +
            (sepRest.length + 1)) = (Q.filter (fun b => b ≠ 10)).length :=
        Nat.add_sub_cancel_left _ _
      omega
  dsimp only
  unfold Fastx.head
  dsimp only
  have hle := @headIdx_le h0 hd'
  have hle' : (position (fun x => isWs x) (64 :: h0 :: hd')).getD ((h0 :: hd').length + 1) ≤
      (64 :: h0 :: hd').length := by
    simp only [List.length_cons] at hle ⊢
    omega
  congr 1
  congr 1
  simp only [List.append_assoc]
  rw [List.take_append_of_le_length hle']

/-- Witness for the amended C2 on `"@1 r\nACGT\n+\nII"`. -/
theorem c2_qual_short_eof_invalid_fastq_witness :
    ((iter_record
        ⟨64 :: (49 :: [32, 114]) ++ 10 :: ([65, 67, 71, 84] ++ 10 :: 43 :: ([] ++ 10 :: [73, 73])),
          []⟩).2 =
      .error (.invalidFastq
        (((64 :: 49 :: [32, 114]).take
            ((position (fun x => isWs x) (64 :: 49 :: [32, 114])).getD
              ((49 :: [32, 114]).length + 1))).drop 1))) ∧
    (((64 :: 49 :: [32, 114]).take
        ((position (fun x => isWs x) (64 :: 49 :: [32, 114])).getD
          ((49 :: [32, 114]).length + 1))).drop 1) = [49] :=
  ⟨@c2_qual_short_eof_invalid_fastq 49 [32, 114] [65, 67, 71, 84] [] [73, 73] []
      (by decide) (by decide) (by decide) (by decide) (by decide) (by decide),
    by decide⟩

/-! ### Success cases of the finishing stage -/

theorem any_nonws_false_of_all10 {X : List Nat} (h : ∀ b ∈ X, b = 10) :
    X.any (fun b => !(isWs b)) = false := by
  rw [List.any_eq_false]
  intro b hb
  rw [h b hb]
  decide

theorem headIdx_ge_two' {t h0 : Nat} {hd' : List Nat} (ht : isWs t = false)
    (hws : isWs h0 = false) :
    2 ≤ (position (fun x => isWs x) (t :: h0 :: hd')).getD ((h0 :: hd').length + 1) := by
  simp only [position_cons, ht, hws, if_neg]
  cases hpos : position (fun x => isWs x) hd' with
  | none => simp [hpos]
  | some i => simp [hpos]

theorem hasDataLeft_false {I D : List Nat} (hall : I.any (fun b => !(isWs b)) = false) :
    hasDataLeft ⟨I, D⟩ = (⟨[], D⟩, false) := by
  unfold hasDataLeft
  rw [hall]
  simp

theorem hasDataLeft_true {I D : List Nat} (hany : I.any (fun b => !(isWs b)) = true) :
    hasDataLeft ⟨I, D⟩ = (⟨I, D⟩, true) := by
  unfold hasDataLeft
  rw [hany]
  simp

theorem finish_fasta_ok_cat {I D : List Nat} {head des seq : Nat}
    (hany : I.any (fun b => !(isWs b)) = true)
    (hhead : 1 < head) (hlt : des < seq) (hD : D.head? = some 62) :
    finish ⟨I, D⟩ true head des seq des des =
      (⟨I, D⟩, .ok (some ⟨head, des, seq, des, des, D⟩)) := by
  have hv : (⟨head, des, seq, des, des, D⟩ : Fastx).validate_fasta = true := by
    simp only [Fastx.validate_fasta, Fastx.is_fasta, Fastx.is_empty, Fastx.len,
      Bool.and_eq_true, Bool.not_eq_true', decide_eq_false_iff_not, decide_eq_true_eq]
    exact ⟨⟨hD, by omega⟩, hhead⟩
  unfold finish
  dsimp only
  rw [hasDataLeft_true hany]
  dsimp only
  rw [if_neg (by simp)]
  rw [if_neg (fun hc => by rw [hv] at hc; exact absurd hc.2 (by simp))]
  rw [if_neg (by simp)]

theorem finish_fasta_ok_solo {I D : List Nat} {head des seq : Nat}
    (hall : I.any (fun b => !(isWs b)) = false)
    (hhead : 1 < head) (hlt : des < seq) (hD : D.head? = some 62) :
    finish ⟨I, D⟩ true head des seq des des =
      (⟨[], D⟩, .ok (some ⟨head, des, seq, des, des, D⟩)) := by
  have hv : (⟨head, des, seq, des, des, D⟩ : Fastx).validate_fasta = true := by
    simp only [Fastx.validate_fasta, Fastx.is_fasta, Fastx.is_empty, Fastx.len,
      Bool.and_eq_true, Bool.not_eq_true', decide_eq_false_iff_not, decide_eq_true_eq]
    exact ⟨⟨hD, by omega⟩, hhead⟩
  unfold finish
  dsimp only
  rw [hasDataLeft_false hall]
  dsimp only
  rw [if_neg ?hn]
  case hn =>
    intro hc
    rcases hc.2 with h | h | h
    · omega
    · omega
    · exact absurd h.1 (by simp)
  rw [if_neg (fun hc => by rw [hv] at hc; exact absurd hc.2 (by simp))]
  rw [if_neg (by simp)]

theorem finish_fastq_ok_cat {I D : List Nat} {head des seq sep qual : Nat}
    (hany : I.any (fun b => !(isWs b)) = true)
    (hhead : 1 < head) (hlt : des < seq) (hsp : seq < sep) (hq : sep < qual)
    (heq : seq - des = qual - sep) (hD : D.head? = some 64) :
    finish ⟨I, D⟩ false head des seq sep qual =
      (⟨I, D⟩, .ok (some ⟨head, des, seq, sep, qual, D⟩)) := by
  have hv : (⟨head, des, seq, sep, qual, D⟩ : Fastx).validate_fastq = true := by
    simp only [Fastx.validate_fastq, Fastx.is_fastq, Fastx.is_empty, Fastx.len,
      Bool.and_eq_true, Bool.not_eq_true', decide_eq_false_iff_not, decide_eq_true_eq,
      beq_iff_eq]
    exact ⟨⟨⟨hD, by omega⟩, heq⟩, hhead⟩
  unfold finish
  dsimp only
  rw [hasDataLeft_true hany]
  dsimp only
  rw [if_neg (by simp)]
  rw [if_neg (by simp)]
  rw [if_neg (by rw [hv]; simp)]

theorem finish_fastq_ok_solo {I D : List Nat} {head des seq sep qual : Nat}
    (hall : I.any (fun b => !(isWs b)) = false)
    (hhead : 1 < head) (hlt : des < seq) (hsp : seq < sep) (hq : sep < qual)
    (heq : seq - des = qual - sep) (hD : D.head? = some 64) :
    finish ⟨I, D⟩ false head des seq sep qual =
      (⟨[], D⟩, .ok (some ⟨head, des, seq, sep, qual, D⟩)) := by
  have hv : (⟨head, des, seq, sep, qual, D⟩ : Fastx).validate_fastq = true := by
    simp only [Fastx.validate_fastq, Fastx.is_fastq, Fastx.is_empty, Fastx.len,
      Bool.and_eq_true, Bool.not_eq_true', decide_eq_false_iff_not, decide_eq_true_eq,
      beq_iff_eq]
    exact ⟨⟨⟨hD, by omega⟩, heq⟩, hhead⟩
  unfold finish
  dsimp only
  rw [hasDataLeft_false hall]
  dsimp only
  rw [if_neg ?hn]
  case hn =>
    intro hc
    rcases hc.2 with h | h | h
    · omega
    · omega
    · rcases h.2 with h | h
      · omega
      · omega
  rw [if_neg (by simp)]
  rw [if_neg (by rw [hv]; simp)]

theorem readUntil_eof {delim : Nat} {I D : List Nat} (hclean : ∀ b ∈ I, b ≠ delim) :
    readUntil delim ⟨I, D⟩ =
      (⟨[], D ++ I.filter (fun b => b ≠ 10)⟩, (I.filter (fun b => b ≠ 10)).length) := by
  unfold readUntil
  dsimp only
  rw [position_none_of_all (by intro b hb; simpa using hclean b hb)]

theorem readUntil_find {delim : Nat} {I R D : List Nat} (hclean : ∀ b ∈ I, b ≠ delim) :
    readUntil delim ⟨I ++ delim :: R, D⟩ =
      (⟨delim :: R, D ++ I.filter (fun b => b ≠ 10)⟩,
        (I.filter (fun b => b ≠ 10)).length) := by
  have hpos : position (fun b => b = delim) (I ++ delim :: R) = some I.length :=
    position_append_stop (by intro b hb; simpa using hclean b hb) (by simp)
  unfold readUntil
  dsimp only
  rw [hpos]
  dsimp only
  rw [List.take_left, List.drop_left]

theorem iter_short_solo {hd body d : List Nat} (hhd : ∀ b ∈ hd, b ≠ 10)
    (hbody : ∀ b ∈ body, b ≠ 62) :
    iter_record ⟨62 :: hd ++ 10 :: body, d⟩ =
      finish ⟨[], 62 :: hd ++ body.filter (fun b => b ≠ 10)⟩ true
        ((position (fun x => isWs x) (62 :: hd)).getD (hd.length + 1)) (hd.length + 1)
        (hd.length + 1 + (body.filter (fun b => b ≠ 10)).length)
        (hd.length + 1) (hd.length + 1) := by
  rw [iter_record_header (by decide) hhd]
  unfold iterAfterHead
  dsimp only
  rw [if_neg (by omega)]
  simp only [List.head?_cons]
  rw [if_neg (by simp)]
  rw [if_pos (by trivial)]
  rw [readUntil_eof hbody]

theorem iter_short_cat {hd body R d : List Nat} (hhd : ∀ b ∈ hd, b ≠ 10)
    (hbody : ∀ b ∈ body, b ≠ 62) :
    iter_record ⟨62 :: hd ++ 10 :: (body ++ 62 :: R), d⟩ =
      finish ⟨62 :: R, 62 :: hd ++ body.filter (fun b => b ≠ 10)⟩ true
        ((position (fun x => isWs x) (62 :: hd)).getD (hd.length + 1)) (hd.length + 1)
        (hd.length + 1 + (body.filter (fun b => b ≠ 10)).length)
        (hd.length + 1) (hd.length + 1) := by
  rw [iter_record_header (by decide) hhd]
  unfold iterAfterHead
  dsimp only
  rw [if_neg (by omega)]
  simp only [List.head?_cons]
  rw [if_neg (by simp)]
  rw [if_pos (by trivial)]
  rw [readUntil_find hbody]

/-! ### End-of-input evaluation lemmas and mid-record truncation (C5) -/

theorem readLineAux_eof_line {t : Nat} {hd : List Nat} (ht : t ≠ 10)
    (hhd : ∀ b ∈ hd, b ≠ 10) :
    readLineAux true (t :: hd) = ([], t :: hd) := by
  have hall : ∀ b ∈ t :: hd, b ≠ 10 := by
    intro b hb
    rcases List.mem_cons.mp hb with h | h
    · exact h ▸ ht
    · exact hhd b h
  unfold readLineAux
  rw [if_neg ht]
  dsimp only
  rw [takeWhile_all hall]
  have hdrop : (t :: hd).drop ((t :: hd).length + 1) = [] :=
    List.drop_eq_nil_of_le (by simp)
  rw [hdrop]

theorem iter_record_header_eof {hd d : List Nat} {t : Nat} (ht : t ≠ 10)
    (hhd : ∀ b ∈ hd, b ≠ 10) :
    iter_record ⟨t :: hd, d⟩ = iterAfterHead ⟨[], t :: hd⟩ (hd.length + 1) := by
  unfold iter_record readLine
  dsimp only
  rw [readLineAux_eof_line ht hhd]
  simp

theorem readLine_nil {D : List Nat} : readLine true ⟨[], D⟩ = (⟨[], D⟩, 0) := by
  unfold readLine readLineAux
  simp

theorem readExact_nil {D : List Nat} (len : Nat) :
    readExact len ⟨[], D⟩ = (⟨[], D⟩, 0) := by
  cases len with
  | zero => simp [readExact, exactEnd]
  | succ n => simp [readExact, exactEnd]

theorem readLine_eof {t : Nat} {hd D : List Nat} (ht : t ≠ 10)
    (hhd : ∀ b ∈ hd, b ≠ 10) :
    readLine true ⟨t :: hd, D⟩ = (⟨[], D ++ t :: hd⟩, hd.length + 1) := by
  unfold readLine
  dsimp only
  rw [readLineAux_eof_line ht hhd]
  simp

/-- When a header line is the whole remaining input, `iter_record` reports
`TruncateFile` for both formats: after the header every reading primitive
returns zero, so `seq = des` and `has_data_left` is false. -/
theorem iterAfterHead_empty {D : List Nat} {des : Nat} (hdes : des ≠ 0)
    (hD : D.head? = some 62 ∨ D.head? = some 64) :
    iterAfterHead ⟨[], D⟩ des = (⟨[], D⟩, .error (.truncateFile D)) := by
  unfold iterAfterHead
  dsimp only
  rw [if_neg hdes]
  rcases hD with hD | hD
  · rw [if_neg (by rw [hD]; simp)]
    rw [if_pos hD]
    rw [readUntil_eof (fun b hb => absurd hb (List.not_mem_nil b))]
    simp only [List.filter_nil, List.append_nil, List.length_nil]
    unfold finish
    dsimp only
    rw [hasDataLeft_nil]
    dsimp only
    rw [if_pos ⟨rfl, Or.inr (Or.inl rfl)⟩]
  · rw [if_neg (by rw [hD]; simp)]
    rw [if_neg (by rw [hD]; simp)]
    rw [readUntil_eof (fun b hb => absurd hb (List.not_mem_nil b))]
    simp only [List.filter_nil, List.append_nil, List.length_nil]
    rw [readLine_nil]
    dsimp only
    rw [readExact_nil]
    dsimp only
    unfold finish
    dsimp only
    rw [hasDataLeft_nil]
    dsimp only
    rw [if_pos ⟨rfl, Or.inr (Or.inl rfl)⟩]

/-- C5: reaching end-of-data mid-record yields `ParseError::TruncateFile`
(never a `Malformed`/`Invalid` error), universally over the incomplete
sections the spec lists: (1) a long-form header line alone and (2) a
short-form header line alone (empty sequence); (3) header plus any
`'+'`-free sequence section (no separator); (4) header, sequence and a
separator line cut off before any quality byte (empty quality); (5) a
record whose header line is the bare `'@'` tag (no identifier), with
arbitrary sequence/separator sections and the quality section cut off at
or before the sequence length.  In particular the inputs `"@id"`,
`"@id\nSEQSEQ"` and `"@id\nSEQSEQ\n+"` each yield `TruncateFile`. -/
theorem c5_truncation_mid_record :
    (∀ hd : List Nat, (∀ b ∈ hd, b ≠ 10) →
      (iter_record ⟨64 :: hd, []⟩).2 = .error (.truncateFile (64 :: hd))) ∧
    (∀ hd : List Nat, (∀ b ∈ hd, b ≠ 10) →
      (iter_record ⟨62 :: hd, []⟩).2 = .error (.truncateFile (62 :: hd))) ∧
    (∀ hd body : List Nat, (∀ b ∈ hd, b ≠ 10) → (∀ b ∈ body, b ≠ 43) →
      (iter_record ⟨64 :: hd ++ 10 :: body, []⟩).2 =
        .error (.truncateFile (64 :: hd ++ body.filter (fun b => b ≠ 10)))) ∧
    (∀ hd body sepRest : List Nat, (∀ b ∈ hd, b ≠ 10) → (∀ b ∈ body, b ≠ 43) →
      (∀ b ∈ sepRest, b ≠ 10) →
      (iter_record ⟨64 :: hd ++ 10 :: (body ++ 43 :: sepRest), []⟩).2 =
        .error (.truncateFile
          (64 :: hd ++ body.filter (fun b => b ≠ 10) ++ 43 :: sepRest))) ∧
    (∀ bodyCore sepRest Q : List Nat, (∀ b ∈ bodyCore, b ≠ 43) →
      (∀ b ∈ sepRest, b ≠ 10) →
      (Q.filter (fun b => b ≠ 10)).length ≤ (bodyCore.filter (fun b => b ≠ 10)).length →
      ∃ m, (iter_record ⟨64 :: 10 :: (bodyCore ++ 10 :: 43 :: (sepRest ++ 10 :: Q)), []⟩).2 =
        .error (.truncateFile m)) ∧
    (iter_record ⟨[64, 105, 100], []⟩).2 = .error (.truncateFile [64, 105, 100]) ∧
    (iter_record ⟨[64, 105, 100, 10, 83, 69, 81, 83, 69, 81], []⟩).2 =
      .error (.truncateFile [64, 105, 100, 83, 69, 81, 83, 69, 81]) ∧
    (iter_record ⟨[64, 105, 100, 10, 83, 69, 81, 83, 69, 81, 10, 43], []⟩).2 =
      .error (.truncateFile [64, 105, 100, 83, 69, 81, 83, 69, 81, 43]) := by
  refine ⟨?_, ?_, ?_, ?_, ?_, by decide, by decide, by decide⟩
  · intro hd hhd
    rw [iter_record_header_eof (by decide) hhd,
      @iterAfterHead_empty (64 :: hd) (hd.length + 1) (by omega) (Or.inr rfl)]
  · intro hd hhd
    rw [iter_record_header_eof (by decide) hhd,
      @iterAfterHead_empty (62 :: hd) (hd.length + 1) (by omega) (Or.inl rfl)]
  · intro hd body hhd hbody
    rw [iter_record_header (by decide) hhd]
    unfold iterAfterHead
    dsimp only
    rw [if_neg (by omega)]
    simp only [List.head?_cons]
    rw [if_neg (by simp)]
    rw [if_neg (by simp)]
    rw [readUntil_eof hbody]
    dsimp only
    rw [readLine_nil]
    dsimp only
    rw [readExact_nil]
    dsimp only
    unfold finish
    dsimp only
    rw [hasDataLeft_nil]
    dsimp only
    rw [if_pos ⟨rfl, Or.inr (Or.inr ⟨rfl, Or.inl rfl⟩)⟩]
  · intro hd body sepRest hhd hbody hsep
    rw [iter_record_header (by decide) hhd]
    unfold iterAfterHead
    dsimp only
    rw [if_neg (by omega)]
    simp only [List.head?_cons]
    rw [if_neg (by simp)]
    rw [if_neg (by simp)]
    rw [readUntil_find hbody]
    dsimp only
    rw [readLine_eof (by decide) hsep]
    dsimp only
    rw [readExact_nil]
    dsimp only
    unfold finish
    dsimp only
    rw [hasDataLeft_nil]
    dsimp only
    rw [if_pos ⟨rfl, Or.inr (Or.inr ⟨rfl, Or.inr rfl⟩)⟩]
  · intro bodyCore sepRest Q hbody hsep hqle
    have e : (⟨64 :: 10 :: (bodyCore ++ 10 :: 43 :: (sepRest ++ 10 :: Q)),
        ([] : List Nat)⟩ : RState) =
      ⟨64 :: [] ++ 10 :: (bodyCore ++ 10 :: 43 :: (sepRest ++ 10 :: Q)), []⟩ := rfl
    rw [e, @iter_long_unfold [] bodyCore sepRest Q []
      (fun b hb => absurd hb (List.not_mem_nil b)) hbody hsep]
    rcases Nat.lt_or_ge (Q.filter (fun b => b ≠ 10)).length
        ((bodyCore.filter (fun b => b ≠ 10)).length) with hlt | hge
    · rw [readExact_short hlt]
      dsimp only
      unfold finish
      dsimp only
      rw [hasDataLeft_nil]
      dsimp only
      rw [if_pos ⟨rfl, Or.inl (by decide)⟩]
      exact ⟨_, rfl⟩
    · have heq : (Q.filter (fun b => b ≠ 10)).length =
          (bodyCore.filter (fun b => b ≠ 10)).length := le_antisymm hqle hge
      obtain ⟨k, hk, hkle, hall, -, hsolo⟩ := @readExact_full Q []
        (64 :: [] ++ bodyCore.filter (fun b => b ≠ 10) ++ 43 :: sepRest)
        ((bodyCore.filter (fun b => b ≠ 10)).length) heq
      rw [hsolo]
      dsimp only
      unfold finish
      dsimp only
      rw [hasDataLeft_false (any_nonws_false_of_all10 hall)]
      dsimp only
      rw [if_pos ⟨rfl, Or.inl (by decide)⟩]
      exact ⟨_, rfl⟩

/-- Witness for C5, one concrete input per universal clause. -/
theorem c5_truncation_mid_record_witness :
    ((iter_record ⟨64 :: [120], []⟩).2 = .error (.truncateFile (64 :: [120]))) ∧
    ((iter_record ⟨62 :: [120], []⟩).2 = .error (.truncateFile (62 :: [120]))) ∧
    ((iter_record ⟨64 :: [120] ++ 10 :: [65, 67], []⟩).2 =
      .error (.truncateFile (64 :: [120] ++ [65, 67].filter (fun b => b ≠ 10)))) ∧
    ((iter_record ⟨64 :: [120] ++ 10 :: ([65, 67] ++ 43 :: []), []⟩).2 =
      .error (.truncateFile
        (64 :: [120] ++ [65, 67].filter (fun b => b ≠ 10) ++ 43 :: []))) ∧
    (∃ m, (iter_record ⟨64 :: 10 :: ([65, 67] ++ 10 :: 43 :: ([] ++ 10 :: [73])), []⟩).2 =
      .error (.truncateFile m)) :=
  ⟨c5_truncation_mid_record.1 [120] (by decide),
   c5_truncation_mid_record.2.1 [120] (by decide),
   c5_truncation_mid_record.2.2.1 [120] [65, 67] (by decide) (by decide),
   c5_truncation_mid_record.2.2.2.1 [120] [65, 67] [] (by decide) (by decide) (by decide),
   c5_truncation_mid_record.2.2.2.2.1 [65, 67] [] [73] (by decide) (by decide) (by decide)⟩

/-! ### Wire-format records, following the spec's short/long form grammar -/

/-- Modelled from the spec wire format: `noLineStart t atStart bs` holds
when no line of `bs` begins with the byte `t`; `atStart` records whether
the scan currently sits at the start of a line. -/
def noLineStart (t : Nat) : Bool → List Nat → Bool
  | _, [] => true
  | atStart, b :: bs => (!(atStart && b == t)) && noLineStart t (b == 10) bs

/-- Modelled from the spec wire format: a short-form record on the wire is
`'>'`, a header line (nonempty identifier starting with a non-whitespace
byte, optional whitespace + description), a newline, then one or more
sequence lines until the next `'>'` or end of input. `hd` is the header
line after the tag, `body` the raw sequence section (newlines
included). -/
structure WireShort where
  hd : List Nat
  body : List Nat
deriving DecidableEq

def WireShort.bytes (r : WireShort) : List Nat := 62 :: (r.hd ++ 10 :: r.body)

/-- Well-formedness of a short-form wire record under the condition the
code forces: the identifier starts with a non-whitespace byte, the header
has no embedded newline, the body contains no `'>'` anywhere — stronger
than the spec grammar, which reserves `'>'` only at line starts (see
`WireShort.wfSpec`) — and the body carries at least one sequence byte. -/
def WireShort.wf (r : WireShort) : Bool :=
  (match r.hd with
   | [] => false
   | h0 :: _ => !(isWs h0))
  && r.hd.all (fun b => b ≠ 10) && r.body.all (fun b => b ≠ 62)
  && ((r.body.filter (fun b => b ≠ 10)).length ≠ 0)

/-- Well-formedness of a short-form wire record as the spec grammar
defines it: the identifier starts with a non-whitespace byte, the header
has no embedded newline, no sequence line starts with `'>'` (the spec's
step 5 checks the peeked byte at line starts only), and the body carries
at least one sequence byte. -/
def WireShort.wfSpec (r : WireShort) : Bool :=
  (match r.hd with
   | [] => false
   | h0 :: _ => !(isWs h0))
  && r.hd.all (fun b => b ≠ 10) && noLineStart 62 true r.body
  && ((r.body.filter (fun b => b ≠ 10)).length ≠ 0)

def WireShort.headIdx (r : WireShort) : Nat :=
  (position (fun x => isWs x) (62 :: r.hd)).getD (r.hd.length + 1)

def WireShort.dataF (r : WireShort) : List Nat :=
  62 :: r.hd ++ r.body.filter (fun b => b ≠ 10)

def WireShort.fx (r : WireShort) : Fastx :=
  ⟨r.headIdx, r.hd.length + 1, r.hd.length + 1 + (r.body.filter (fun b => b ≠ 10)).length,
   r.hd.length + 1, r.hd.length + 1, r.dataF⟩

/-- Modelled from the spec wire format: a long-form record on the wire is
`'@'`, a header line, a newline, sequence lines (`bodyCore`, final
newline implicit in `bytes`), the `'+'` separator line (`sepRest` is its
content after `'+'`), a newline, and the quality section `qual` whose
non-newline bytes number exactly the sequence length. -/
structure WireLong where
  hd : List Nat
  bodyCore : List Nat
  sepRest : List Nat
  qual : List Nat
deriving DecidableEq

def WireLong.bytes (r : WireLong) : List Nat :=
  64 :: (r.hd ++ 10 :: (r.bodyCore ++ 10 :: 43 :: (r.sepRest ++ 10 :: r.qual)))

def WireLong.L (r : WireLong) : Nat := (r.bodyCore.filter (fun b => b ≠ 10)).length

/-- Well-formedness of a long-form wire record under the condition the
code forces: nonempty identifier with a non-whitespace first byte, no
newline in the header or the separator line, no `'+'` in the sequence
body anywhere — stronger than the spec grammar, which ends the sequence
only at a line starting with `'+'` (see `WireLong.wfSpec`) — a nonempty
sequence, and a quality section whose non-newline byte count equals the
sequence length. -/
def WireLong.wf (r : WireLong) : Bool :=
  (match r.hd with
   | [] => false
   | h0 :: _ => !(isWs h0))
  && r.hd.all (fun b => b ≠ 10) && r.bodyCore.all (fun b => b ≠ 43)
  && (r.L ≠ 0) && r.sepRest.all (fun b => b ≠ 10)
  && ((r.qual.filter (fun b => b ≠ 10)).length == r.L)

/-- Well-formedness of a long-form wire record as the spec grammar
defines it: same conditions as `WireLong.wf` except that the sequence
body is only required to have no line starting with `'+'` (sequence
lines run until a line beginning with `'+'`); a mid-line `'+'` is legal
sequence content. -/
def WireLong.wfSpec (r : WireLong) : Bool :=
  (match r.hd with
   | [] => false
   | h0 :: _ => !(isWs h0))
  && r.hd.all (fun b => b ≠ 10) && noLineStart 43 true r.bodyCore
  && (r.L ≠ 0) && r.sepRest.all (fun b => b ≠ 10)
  && ((r.qual.filter (fun b => b ≠ 10)).length == r.L)

/-- Number of quality bytes `read_exact` consumes for this record. -/
def WireLong.kq (r : WireLong) : Nat := (exactEnd r.qual r.L).getD 0

def WireLong.headIdx (r : WireLong) : Nat :=
  (position (fun x => isWs x) (64 :: r.hd)).getD (r.hd.length + 1)

def WireLong.dataF (r : WireLong) : List Nat :=
  64 :: r.hd ++ r.bodyCore.filter (fun b => b ≠ 10) ++ 43 :: r.sepRest ++
    (r.qual.take r.kq).filter (fun b => b ≠ 10)

def WireLong.fx (r : WireLong) : Fastx :=
  ⟨r.headIdx, r.hd.length + 1, r.hd.length + 1 + r.L,
   r.hd.length + 1 + r.L + (r.sepRest.length + 1),
   r.hd.length + 1 + r.L + (r.sepRest.length + 1) + r.L, r.dataF⟩

theorem wireShort_parse_solo (r : WireShort) (hwf : r.wf = true) (d : List Nat) :
    iter_record ⟨r.bytes, d⟩ = (⟨[], r.dataF⟩, .ok (some r.fx)) := by
  obtain ⟨hd, body⟩ := r
  cases hd with
  | nil => simp [WireShort.wf] at hwf
  | cons h0 hd' =>
    simp only [WireShort.wf, Bool.and_eq_true, List.all_eq_true, decide_eq_true_eq,
      Bool.not_eq_true'] at hwf
    obtain ⟨⟨⟨hws, hhd⟩, hbody⟩, hbl⟩ := hwf
    have hbridge : (⟨WireShort.bytes ⟨h0 :: hd', body⟩, d⟩ : RState) =
        ⟨62 :: (h0 :: hd') ++ 10 :: body, d⟩ := rfl
    rw [hbridge, iter_short_solo hhd hbody]
    rw [finish_fasta_ok_solo (by simp) ?hh ?hl (by simp)]
    case hh =>
      have := @headIdx_ge_two' 62 h0 hd' (by decide) hws
      omega
    case hl => omega
    rfl

theorem wireShort_parse_cat (r : WireShort) (hwf : r.wf = true) (R d : List Nat) :
    iter_record ⟨r.bytes ++ 62 :: R, d⟩ = (⟨62 :: R, r.dataF⟩, .ok (some r.fx)) := by
  obtain ⟨hd, body⟩ := r
  cases hd with
  | nil => simp [WireShort.wf] at hwf
  | cons h0 hd' =>
    simp only [WireShort.wf, Bool.and_eq_true, List.all_eq_true, decide_eq_true_eq,
      Bool.not_eq_true'] at hwf
    obtain ⟨⟨⟨hws, hhd⟩, hbody⟩, hbl⟩ := hwf
    have hbridge : (⟨WireShort.bytes ⟨h0 :: hd', body⟩ ++ 62 :: R, d⟩ : RState) =
        ⟨62 :: (h0 :: hd') ++ 10 :: (body ++ 62 :: R), d⟩ := by
      simp [WireShort.bytes]
    rw [hbridge, iter_short_cat hhd hbody]
    rw [finish_fasta_ok_cat (by simp [isWs]) ?hh ?hl (by simp)]
    case hh =>
      have := @headIdx_ge_two' 62 h0 hd' (by decide) hws
      omega
    case hl => omega
    rfl

theorem wireLong_parse_solo (r : WireLong) (hwf : r.wf = true) (d : List Nat) :
    iter_record ⟨r.bytes, d⟩ = (⟨[], r.dataF⟩, .ok (some r.fx)) ∧
    ∀ b ∈ r.qual.drop r.kq, b = 10 := by
  obtain ⟨hd, bodyCore, sepRest, qual⟩ := r
  cases hd with
  | nil => simp [WireLong.wf] at hwf
  | cons h0 hd' =>
    simp only [WireLong.wf, WireLong.L, Bool.and_eq_true, List.all_eq_true,
      decide_eq_true_eq, Bool.not_eq_true', beq_iff_eq] at hwf
    obtain ⟨⟨⟨⟨⟨hws, hhd⟩, hbody⟩, hL⟩, hsep⟩, hq⟩ := hwf
    obtain ⟨k, hk, hkle, hall, -, hsolo⟩ :=
      @readExact_full qual []
        (64 :: (h0 :: hd') ++ bodyCore.filter (fun b => b ≠ 10) ++ 43 :: sepRest)
        ((bodyCore.filter (fun b => b ≠ 10)).length) hq
    have hkq : WireLong.kq ⟨h0 :: hd', bodyCore, sepRest, qual⟩ = k := by
      simp only [WireLong.kq, WireLong.L]
      rw [hk]
      rfl
    have hbridge : (⟨WireLong.bytes ⟨h0 :: hd', bodyCore, sepRest, qual⟩, d⟩ : RState) =
        ⟨64 :: (h0 :: hd') ++ 10 :: (bodyCore ++ 10 :: 43 :: (sepRest ++ 10 :: qual)), d⟩ := rfl
    refine ⟨?_, ?_⟩
    · rw [hbridge, iter_long_unfold hhd hbody hsep]
      rw [hsolo]
      dsimp only
      rw [finish_fastq_ok_solo (any_nonws_false_of_all10 hall) ?hh ?h1 ?h2 ?h3 ?h4 (by simp)]
      case hh =>
        have := @headIdx_ge_two' 64 h0 hd' (by decide) hws
        omega
      case h1 => omega
      case h2 => omega
      case h3 => omega
      case h4 => omega
      simp only [WireLong.dataF, WireLong.fx, WireLong.headIdx, WireLong.L, hkq]
    · rw [hkq]
      exact hall

theorem wireLong_parse_cat (r : WireLong) (hwf : r.wf = true) (rest d : List Nat)
    (hany : rest.any (fun b => !(isWs b)) = true) :
    iter_record ⟨r.bytes ++ rest, d⟩ =
      (⟨r.qual.drop r.kq ++ rest, r.dataF⟩, .ok (some r.fx)) ∧
    ∀ b ∈ r.qual.drop r.kq, b = 10 := by
  obtain ⟨hd, bodyCore, sepRest, qual⟩ := r
  cases hd with
  | nil => simp [WireLong.wf] at hwf
  | cons h0 hd' =>
    simp only [WireLong.wf, WireLong.L, Bool.and_eq_true, List.all_eq_true,
      decide_eq_true_eq, Bool.not_eq_true', beq_iff_eq] at hwf
    obtain ⟨⟨⟨⟨⟨hws, hhd⟩, hbody⟩, hL⟩, hsep⟩, hq⟩ := hwf
    obtain ⟨k, hk, hkle, hall, hcat, -⟩ :=
      @readExact_full qual rest
        (64 :: (h0 :: hd') ++ bodyCore.filter (fun b => b ≠ 10) ++ 43 :: sepRest)
        ((bodyCore.filter (fun b => b ≠ 10)).length) hq
    have hkq : WireLong.kq ⟨h0 :: hd', bodyCore, sepRest, qual⟩ = k := by
      simp only [WireLong.kq, WireLong.L]
      rw [hk]
      rfl
    have hbridge : (⟨WireLong.bytes ⟨h0 :: hd', bodyCore, sepRest, qual⟩ ++ rest, d⟩ : RState) =
        ⟨64 :: (h0 :: hd') ++ 10 :: (bodyCore ++ 10 :: 43 :: (sepRest ++ 10 :: (qual ++ rest))),
          d⟩ := by
      simp [WireLong.bytes]
    refine ⟨?_, ?_⟩
    · rw [hbridge, iter_long_unfold hhd hbody hsep]
      rw [hcat]
      dsimp only
      rw [finish_fastq_ok_cat ?ha ?hh ?h1 ?h2 ?h3 ?h4 (by simp)]
      case ha =>
        rw [List.any_append, any_nonws_false_of_all10 hall, hany]
        rfl
      case hh =>
        have := @headIdx_ge_two' 64 h0 hd' (by decide) hws
        omega
      case h1 => omega
      case h2 => omega
      case h3 => omega
      case h4 => omega
      simp only [WireLong.dataF, WireLong.fx, WireLong.headIdx, WireLong.L, hkq]
    · rw [hkq]
      exact hall

theorem iter_record_nil {d : List Nat} : iter_record ⟨[], d⟩ = (⟨[], []⟩, .ok none) := rfl

theorem readLineAux_skip_all10 {P I : List Nat} (hP : ∀ b ∈ P, b = 10) :
    readLineAux true (P ++ I) = readLineAux true I := by
  induction P with
  | nil => rfl
  | cons b bs ih =>
    have hb : b = 10 := hP b (by simp)
    subst hb
    calc readLineAux true ((10 :: bs) ++ I) = readLineAux true (10 :: (bs ++ I)) := by
          rw [List.cons_append]
      _ = readLineAux true (bs ++ I) := by simp [readLineAux]
      _ = readLineAux true I := ih (fun x hx => hP x (by simp [hx]))

theorem iter_skip_nl {P I d : List Nat} (hP : ∀ b ∈ P, b = 10) :
    iter_record ⟨P ++ I, d⟩ = iter_record ⟨I, d⟩ := by
  unfold iter_record readLine
  dsimp only
  rw [readLineAux_skip_all10 hP]

/-- A wire record of either format. -/
inductive WireRec where
  | short (r : WireShort)
  | long (r : WireLong)
deriving DecidableEq

def WireRec.bytes : WireRec → List Nat
  | .short r => r.bytes
  | .long r => r.bytes

def WireRec.wf : WireRec → Bool
  | .short r => r.wf
  | .long r => r.wf

/-- Wire-record well-formedness as the spec grammar defines it. -/
def WireRec.wfSpec : WireRec → Bool
  | .short r => r.wfSpec
  | .long r => r.wfSpec

def WireRec.isShort : WireRec → Bool
  | .short _ => true
  | .long _ => false

/-- The five field accessors of a record view, as one tuple. -/
def fieldsOf (f : Fastx) : List (List Nat) := [f.head, f.des, f.seq, f.sep, f.qual]

/-- C7 counterexample: `"@i\nAT+G\n+\nIIII"` and `"@b\nGG\n+\nJJ"` are
both well-formed long-form records by the spec's wire grammar (the single
sequence line `"AT+G"` does not start with `'+'`, and the quality length
4 equals the sequence length 4), yet composability fails on them: the
mid-line `'+'` cuts the parsed sequence to `"AT"`, quality bytes are
taken from the wrong position, and the call that should produce
end-of-stream (solo) or the second record (concatenated) fails with
`InvalidFastx` — so parsing the concatenation does not yield exactly two
records matching the solo parses.  The first record falls outside the
strengthened condition `wf` of the amended statement. -/
theorem c7_concat_compose_counterexample :
    (WireRec.long ⟨[105], [65, 84, 43, 71], [], [73, 73, 73, 73]⟩).wfSpec = true ∧
    (WireRec.long ⟨[98], [71, 71], [], [74, 74]⟩).wfSpec = true ∧
    (WireRec.long ⟨[105], [65, 84, 43, 71], [], [73, 73, 73, 73]⟩).isShort =
      (WireRec.long ⟨[98], [71, 71], [], [74, 74]⟩).isShort ∧
    (WireRec.long ⟨[105], [65, 84, 43, 71], [], [73, 73, 73, 73]⟩).wf = false ∧
    (iter_record
        ⟨(WireRec.long ⟨[105], [65, 84, 43, 71], [], [73, 73, 73, 73]⟩).bytes, []⟩).2 =
      .ok (some ⟨2, 2, 4, 6, 8, [64, 105, 65, 84, 43, 71, 43, 73]⟩) ∧
    (⟨2, 2, 4, 6, 8, [64, 105, 65, 84, 43, 71, 43, 73]⟩ : Fastx).seq = [65, 84] ∧
    (⟨2, 2, 4, 6, 8, [64, 105, 65, 84, 43, 71, 43, 73]⟩ : Fastx).seq ≠
      [65, 84, 43, 71].filter (fun b => b ≠ 10) ∧
    (iter_record (iter_record
        ⟨(WireRec.long ⟨[105], [65, 84, 43, 71], [], [73, 73, 73, 73]⟩).bytes, []⟩).1).2 =
      .error (.invalidFastx [73, 73, 73]) ∧
    (iter_record (iter_record
        ⟨(WireRec.long ⟨[105], [65, 84, 43, 71], [], [73, 73, 73, 73]⟩).bytes ++
          (WireRec.long ⟨[98], [71, 71], [], [74, 74]⟩).bytes, []⟩).1).2 =
      .error (.invalidFastx [73, 73, 73, 64, 98]) := by
  decide

/-- C7 as amended: parsing the concatenation of two wire records of the
same format that are well-formed under the strengthened condition `wf` —
the spec grammar's well-formedness with the format's reserved tag byte
(`'+'` long form, `'>'` short form) additionally excluded from the whole
sequence body, not just from line starts, which is what the byte-wise
`read_until` scan actually requires — yields exactly two records, in
order, then end-of-stream, and each record is field-for-field (head, des,
seq, sep, qual) identical to the record obtained by parsing its byte
string alone (which itself parses to exactly one record then
end-of-stream). -/
theorem c7_concat_compose (a b : WireRec) (ha : a.wf = true) (hb : b.wf = true)
    (hf : a.isShort = b.isShort) :
    ∃ f1 f2 g1 g2 : Fastx,
      (iter_record ⟨a.bytes, []⟩).2 = .ok (some f1) ∧
      (iter_record (iter_record ⟨a.bytes, []⟩).1).2 = .ok none ∧
      (iter_record ⟨b.bytes, []⟩).2 = .ok (some f2) ∧
      (iter_record (iter_record ⟨b.bytes, []⟩).1).2 = .ok none ∧
      (iter_record ⟨a.bytes ++ b.bytes, []⟩).2 = .ok (some g1) ∧
      (iter_record (iter_record ⟨a.bytes ++ b.bytes, []⟩).1).2 = .ok (some g2) ∧
      (iter_record (iter_record (iter_record ⟨a.bytes ++ b.bytes, []⟩).1).1).2 = .ok none ∧
      fieldsOf g1 = fieldsOf f1 ∧ fieldsOf g2 = fieldsOf f2 := by
  cases a with
  | short ra =>
    cases b with
    | long rb => simp [WireRec.isShort] at hf
    | short rb =>
      simp only [WireRec.bytes]
      have ha' : ra.wf = true := ha
      have hb' : rb.wf = true := hb
      refine ⟨ra.fx, rb.fx, ra.fx, rb.fx, ?_, ?_, ?_, ?_, ?_, ?_, ?_, rfl, rfl⟩
      · rw [wireShort_parse_solo ra ha']
      · rw [wireShort_parse_solo ra ha']
        dsimp only
        rw [iter_record_nil]
      · rw [wireShort_parse_solo rb hb']
      · rw [wireShort_parse_solo rb hb']
        dsimp only
        rw [iter_record_nil]
      · have e : (⟨ra.bytes ++ rb.bytes, ([] : List Nat)⟩ : RState) =
            ⟨ra.bytes ++ 62 :: (rb.hd ++ 10 :: rb.body), []⟩ := rfl
        rw [e, wireShort_parse_cat ra ha' (rb.hd ++ 10 :: rb.body) []]
      · have e : (⟨ra.bytes ++ rb.bytes, ([] : List Nat)⟩ : RState) =
            ⟨ra.bytes ++ 62 :: (rb.hd ++ 10 :: rb.body), []⟩ := rfl
        rw [e, wireShort_parse_cat ra ha' (rb.hd ++ 10 :: rb.body) []]
        dsimp only
        have e2 : (⟨62 :: (rb.hd ++ 10 :: rb.body), ra.dataF⟩ : RState) =
            ⟨rb.bytes, ra.dataF⟩ := rfl
        rw [e2, wireShort_parse_solo rb hb']
      · have e : (⟨ra.bytes ++ rb.bytes, ([] : List Nat)⟩ : RState) =
            ⟨ra.bytes ++ 62 :: (rb.hd ++ 10 :: rb.body), []⟩ := rfl
        rw [e, wireShort_parse_cat ra ha' (rb.hd ++ 10 :: rb.body) []]
        dsimp only
        have e2 : (⟨62 :: (rb.hd ++ 10 :: rb.body), ra.dataF⟩ : RState) =
            ⟨rb.bytes, ra.dataF⟩ := rfl
        rw [e2, wireShort_parse_solo rb hb']
        dsimp only
        rw [iter_record_nil]
  | long ra =>
    cases b with
    | short rb => simp [WireRec.isShort] at hf
    | long rb =>
      simp only [WireRec.bytes]
      have ha' : ra.wf = true := ha
      have hb' : rb.wf = true := hb
      have hany : rb.bytes.any (fun x => !(isWs x)) = true := by
        have e : rb.bytes = 64 :: (rb.hd ++ 10 :: (rb.bodyCore ++ 10 :: 43 ::
            (rb.sepRest ++ 10 :: rb.qual))) := rfl
        rw [e, List.any_cons]
        have h64 : (!isWs 64) = true := rfl
        rw [h64, Bool.true_or]
      obtain ⟨hsolo1, -⟩ := wireLong_parse_solo ra ha' []
      obtain ⟨hsolo2, -⟩ := wireLong_parse_solo rb hb' ra.dataF
      obtain ⟨hsolo2', -⟩ := wireLong_parse_solo rb hb' []
      obtain ⟨hcat, hall⟩ := wireLong_parse_cat ra ha' rb.bytes [] hany
      refine ⟨ra.fx, rb.fx, ra.fx, rb.fx, ?_, ?_, ?_, ?_, ?_, ?_, ?_, rfl, rfl⟩
      · rw [hsolo1]
      · rw [hsolo1]
        dsimp only
        rw [iter_record_nil]
      · rw [hsolo2']
      · rw [hsolo2']
        dsimp only
        rw [iter_record_nil]
      · rw [hcat]
      · rw [hcat]
        dsimp only
        rw [iter_skip_nl hall, hsolo2]
      · rw [hcat]
        dsimp only
        rw [iter_skip_nl hall, hsolo2]
        dsimp only
        rw [iter_record_nil]

/-- Witness for C7 on `"@a\nAC\n+\nII"` and `"@b\nGG\n+\nJJ"`. -/
theorem c7_concat_compose_witness :
    (WireRec.long ⟨[97], [65, 67], [], [73, 73]⟩).wf = true ∧
    (WireRec.long ⟨[98], [71, 71], [], [74, 74]⟩).wf = true ∧
    (WireRec.long ⟨[97], [65, 67], [], [73, 73]⟩).isShort =
      (WireRec.long ⟨[98], [71, 71], [], [74, 74]⟩).isShort ∧
    (∃ f1 f2 g1 g2 : Fastx,
      (iter_record ⟨(WireRec.long ⟨[97], [65, 67], [], [73, 73]⟩).bytes, []⟩).2 =
        .ok (some f1) ∧
      (iter_record
          (iter_record ⟨(WireRec.long ⟨[97], [65, 67], [], [73, 73]⟩).bytes, []⟩).1).2 =
        .ok none ∧
      (iter_record ⟨(WireRec.long ⟨[98], [71, 71], [], [74, 74]⟩).bytes, []⟩).2 =
        .ok (some f2) ∧
      (iter_record
          (iter_record ⟨(WireRec.long ⟨[98], [71, 71], [], [74, 74]⟩).bytes, []⟩).1).2 =
        .ok none ∧
      (iter_record ⟨(WireRec.long ⟨[97], [65, 67], [], [73, 73]⟩).bytes ++
          (WireRec.long ⟨[98], [71, 71], [], [74, 74]⟩).bytes, []⟩).2 = .ok (some g1) ∧
      (iter_record (iter_record ⟨(WireRec.long ⟨[97], [65, 67], [], [73, 73]⟩).bytes ++
          (WireRec.long ⟨[98], [71, 71], [], [74, 74]⟩).bytes, []⟩).1).2 = .ok (some g2) ∧
      (iter_record (iter_record (iter_record
          ⟨(WireRec.long ⟨[97], [65, 67], [], [73, 73]⟩).bytes ++
            (WireRec.long ⟨[98], [71, 71], [], [74, 74]⟩).bytes, []⟩).1).1).2 = .ok none ∧
      fieldsOf g1 = fieldsOf f1 ∧ fieldsOf g2 = fieldsOf f2) :=
  ⟨by decide, by decide, by decide,
    c7_concat_compose (WireRec.long ⟨[97], [65, 67], [], [73, 73]⟩)
      (WireRec.long ⟨[98], [71, 71], [], [74, 74]⟩) (by decide) (by decide) (by decide)⟩

/-! ### The multi-source aggregator `Readers` (src/record.rs) -/

/-- `Readers`: an ordered reader list plus the cursor `index`. -/
structure ReadersState where
  index : Nat
  readers : List RState
deriving DecidableEq

/-- The `for idx in self.index..self.readers.len()` loop of
`Readers::iter_record`; `fuel` is the number of remaining iterations of
the range, `len - idx` at entry. -/
def readersGo : Nat → List RState → Nat → ReadersState × Except ParseError (Option Fastx)
  | 0, readers, idx => (⟨idx, readers⟩, .ok none)
  | fuel + 1, readers, idx =>
    if h : idx < readers.length then
      let pr := hasDataLeft (readers.get ⟨idx, h⟩)
      if pr.2 then
        let r := iter_record pr.1
        (⟨idx, readers.set idx r.1⟩, r.2)
      else
        readersGo fuel (readers.set idx pr.1) (idx + 1)
    else
      (⟨idx, readers⟩, .ok none)

/-- `Readers::iter_record`: starting from the stored cursor, probe each
reader in order; the first with data supplies the record and the cursor
stays; an exhausted reader advances the cursor permanently; past the end
the answer is `Ok(None)`. -/
def Readers.iter_record (rs : ReadersState) : ReadersState × Except ParseError (Option Fastx) :=
  readersGo (rs.readers.length - rs.index) rs.readers rs.index

theorem hasDataLeft_true_state {s : RState} (h : (hasDataLeft s).2 = true) :
    (hasDataLeft s).1 = s := by
  unfold hasDataLeft at h ⊢
  split at h
  · split
    · rfl
    · simp_all
  · simp at h

theorem hasDataLeft_false_state {s : RState} (h : (hasDataLeft s).2 = false) :
    (hasDataLeft s).1.input = [] := by
  unfold hasDataLeft at h ⊢
  split at h
  · simp at h
  · split
    · simp_all
    · rfl

theorem readersGo_spec : ∀ (fuel : Nat) (readers : List RState) (idx : Nat),
    idx ≤ (readersGo fuel readers idx).1.index ∧
    (readersGo fuel readers idx).1.readers.length = readers.length ∧
    (∀ j, j < idx → (readersGo fuel readers idx).1.readers.get? j = readers.get? j) ∧
    (∀ j, idx ≤ j → j < (readersGo fuel readers idx).1.index →
      ∃ t, (readersGo fuel readers idx).1.readers.get? j = some t ∧ t.input = []) ∧
    (readers.length ≤ idx → readersGo fuel readers idx = (⟨idx, readers⟩, .ok none)) ∧
    (∀ h : idx < readers.length, 0 < fuel →
      (hasDataLeft (readers.get ⟨idx, h⟩)).2 = true →
      (readersGo fuel readers idx).1.index = idx ∧
      (readersGo fuel readers idx).2 = (iter_record (readers.get ⟨idx, h⟩)).2) := by
  intro fuel
  induction fuel with
  | zero =>
    intro readers idx
    refine ⟨Nat.le_refl _, rfl, fun j hj => rfl, ?_, fun h => rfl, ?_⟩
    · intro j hj1 hj2
      simp [readersGo] at hj2
      omega
    · intro h hf
      omega
  | succ fuel ih =>
    intro readers idx
    by_cases h : idx < readers.length
    · have hgo : readersGo (fuel + 1) readers idx =
          if (hasDataLeft (readers.get ⟨idx, h⟩)).2 then
            (⟨idx, readers.set idx (iter_record (hasDataLeft (readers.get ⟨idx, h⟩)).1).1⟩,
              (iter_record (hasDataLeft (readers.get ⟨idx, h⟩)).1).2)
          else
            readersGo fuel (readers.set idx (hasDataLeft (readers.get ⟨idx, h⟩)).1) (idx + 1) := by
        simp only [readersGo]
        rw [dif_pos h]
      by_cases hd : (hasDataLeft (readers.get ⟨idx, h⟩)).2 = true
      · rw [hgo, if_pos hd]
        have hst := hasDataLeft_true_state hd
        refine ⟨Nat.le_refl _, by simp, ?_, ?_, ?_, ?_⟩
        · intro j hj
          exact List.get?_set_ne _ _ (by omega)
        · intro j hj1 hj2
          dsimp only at hj2
          omega
        · intro hlen
          omega
        · intro h' hf hd'
          refine ⟨rfl, ?_⟩
          dsimp only
          rw [hst]
      · rw [hgo, if_neg hd]
        rw [Bool.not_eq_true] at hd
        obtain ⟨i1, i2, i3, i4, i5, i6⟩ := ih (readers.set idx (hasDataLeft (readers.get ⟨idx, h⟩)).1) (idx + 1)
        refine ⟨by omega, by rw [i2]; simp, ?_, ?_, ?_, ?_⟩
        · intro j hj
          rw [i3 j (by omega)]
          exact List.get?_set_ne _ _ (by omega)
        · intro j hj1 hj2
          by_cases hji : j = idx
          · subst hji
            rw [i3 j (by omega)]
            refine ⟨(hasDataLeft (readers.get ⟨j, h⟩)).1, ?_, hasDataLeft_false_state hd⟩
            exact List.get?_set_eq_of_lt _ h
          · exact i4 j (by omega) hj2
        · intro hlen
          omega
        · intro h' hf hd'
          exact absurd hd' (by rw [hd]; simp)
    · have hgo : readersGo (fuel + 1) readers idx = (⟨idx, readers⟩, .ok none) := by
        simp only [readersGo]
        rw [dif_neg h]
      rw [hgo]
      refine ⟨Nat.le_refl _, rfl, fun j hj => rfl, ?_, fun hl => rfl, ?_⟩
      · intro j hj1 hj2
        dsimp only at hj2
        omega
      · intro h'
        exact absurd h' h

/-- C8: `Readers::iter_record` serves readers strictly in list order: the
cursor never decreases; readers before the cursor are never touched
again; every reader the cursor passes over was found exhausted (its
input consumed to empty); once the cursor is past the last reader the
call returns `Ok(None)` with the state unchanged; and when the reader at
the cursor still has data, the cursor stays put and that reader supplies
the next record. -/
theorem c8_readers_cursor_order (rs : ReadersState) :
    rs.index ≤ (Readers.iter_record rs).1.index ∧
    (Readers.iter_record rs).1.readers.length = rs.readers.length ∧
    (∀ j, j < rs.index →
      (Readers.iter_record rs).1.readers.get? j = rs.readers.get? j) ∧
    (∀ j, rs.index ≤ j → j < (Readers.iter_record rs).1.index →
      ∃ t, (Readers.iter_record rs).1.readers.get? j = some t ∧ t.input = []) ∧
    (rs.readers.length ≤ rs.index →
      Readers.iter_record rs = (⟨rs.index, rs.readers⟩, .ok none)) ∧
    (∀ h : rs.index < rs.readers.length,
      (hasDataLeft (rs.readers.get ⟨rs.index, h⟩)).2 = true →
      (Readers.iter_record rs).1.index = rs.index ∧
      (Readers.iter_record rs).2 = (iter_record (rs.readers.get ⟨rs.index, h⟩)).2) := by
  obtain ⟨s1, s2, s3, s4, s5, s6⟩ :=
    readersGo_spec (rs.readers.length - rs.index) rs.readers rs.index
  exact ⟨s1, s2, s3, s4, s5, fun h hd => s6 h (by omega) hd⟩

/-- Witness for C8: a one-reader list with data keeps the cursor at 0 and
serves that reader; a cursor already past the end yields `Ok(None)`
without touching the state. -/
theorem c8_readers_cursor_order_witness :
    ((hasDataLeft (([⟨[62, 97, 10, 65, 67], []⟩] : List RState).get ⟨0, by decide⟩)).2 = true ∧
      (Readers.iter_record ⟨0, [⟨[62, 97, 10, 65, 67], []⟩]⟩).1.index = 0 ∧
      (Readers.iter_record ⟨0, [⟨[62, 97, 10, 65, 67], []⟩]⟩).2 =
        (iter_record (([⟨[62, 97, 10, 65, 67], []⟩] : List RState).get ⟨0, by decide⟩)).2) ∧
    (([⟨[32], []⟩] : List RState).length ≤ 3 ∧
      Readers.iter_record ⟨3, [⟨[32], []⟩]⟩ = (⟨3, [⟨[32], []⟩]⟩, .ok none)) := by
  constructor
  · refine ⟨by decide, ?_, ?_⟩
    · exact ((c8_readers_cursor_order ⟨0, [⟨[62, 97, 10, 65, 67], []⟩]⟩).2.2.2.2.2
        (by decide) (by decide)).1
    · exact ((c8_readers_cursor_order ⟨0, [⟨[62, 97, 10, 65, 67], []⟩]⟩).2.2.2.2.2
        (by decide) (by decide)).2
  · exact ⟨by decide, (c8_readers_cursor_order ⟨3, [⟨[32], []⟩]⟩).2.2.2.2.1 (by decide)⟩

/-! ### Appending one trailing newline (C10) -/

theorem position_append_nl {p : Nat → Bool} (h10 : p 10 = false) (I : List Nat) :
    position p (I ++ [10]) = position p I := by
  induction I with
  | nil => simp [h10]
  | cons b bs ih =>
    by_cases pb : p b
    · simp [pb]
    · simp only [List.cons_append, position_cons, pb]
      rw [if_neg (by simp), if_neg (by simp), ih]

theorem takeWhile_append_nl_mem {l : List Nat} (h : 10 ∈ l) :
    List.takeWhile (fun x => decide (x ≠ 10)) (l ++ [10]) =
      List.takeWhile (fun x => decide (x ≠ 10)) l := by
  induction l with
  | nil => simp at h
  | cons b bs ih =>
    by_cases hb : b = 10
    · subst hb
      simp [List.takeWhile_cons]
    · have hmem : 10 ∈ bs := by
        rcases List.mem_cons.mp h with hc | hc
        · exact absurd hc.symm hb
        · exact hc
      simp only [List.cons_append, List.takeWhile_cons, decide_eq_true_eq]
      rw [if_pos hb, if_pos hb, ih hmem]

theorem firstNl_len_le {l : List Nat} (h : 10 ∈ l) :
    (List.takeWhile (fun x => decide (x ≠ 10)) l).length + 1 ≤ l.length := by
  induction l with
  | nil => simp at h
  | cons b bs ih =>
    by_cases hb : b = 10
    · subst hb
      simp [List.takeWhile_cons]
    · have hmem : 10 ∈ bs := by
        rcases List.mem_cons.mp h with hc | hc
        · exact absurd hc.symm hb
        · exact hc
      simp only [List.takeWhile_cons, decide_eq_true_eq]
      rw [if_pos hb]
      have := ih hmem
      simp only [List.length_cons]
      omega

theorem readLineAux_append_nl (sk : Bool) (I : List Nat) :
    (readLineAux sk (I ++ [10])).2 = (readLineAux sk I).2 ∧
    ((readLineAux sk (I ++ [10])).1 = (readLineAux sk I).1 ∨
      (readLineAux sk (I ++ [10])).1 = (readLineAux sk I).1 ++ [10]) := by
  induction I with
  | nil =>
    cases sk <;> simp [readLineAux]
  | cons b bs ih =>
    by_cases hb : b = 10
    · subst hb
      cases sk with
      | true =>
        have e1 : readLineAux true ((10 :: bs) ++ [10]) = readLineAux true (bs ++ [10]) := by
          rw [List.cons_append]
          simp [readLineAux]
        have e2 : readLineAux true (10 :: bs) = readLineAux true bs := by
          simp [readLineAux]
        rw [e1, e2]
        exact ih
      | false =>
        have e1 : readLineAux false ((10 :: bs) ++ [10]) = (bs ++ [10], []) := by
          rw [List.cons_append]
          simp [readLineAux]
        have e2 : readLineAux false (10 :: bs) = (bs, []) := by
          simp [readLineAux]
        rw [e1, e2]
        exact ⟨rfl, Or.inr rfl⟩
    · have eL : readLineAux sk (b :: bs) =
          ((b :: bs).drop ((List.takeWhile (fun x => decide (x ≠ 10)) (b :: bs)).length + 1),
            List.takeWhile (fun x => decide (x ≠ 10)) (b :: bs)) := by
        unfold readLineAux
        rw [if_neg hb]
      have eR : readLineAux sk ((b :: bs) ++ [10]) =
          (((b :: bs) ++ [10]).drop
              ((List.takeWhile (fun x => decide (x ≠ 10)) ((b :: bs) ++ [10])).length + 1),
            List.takeWhile (fun x => decide (x ≠ 10)) ((b :: bs) ++ [10])) := by
        rw [List.cons_append]
        unfold readLineAux
        rw [if_neg hb]
      by_cases hmem : 10 ∈ b :: bs
      · have htw := takeWhile_append_nl_mem hmem
        have hlen := firstNl_len_le hmem
        rw [eL, eR, htw]
        refine ⟨rfl, Or.inr ?_⟩
        dsimp only
        rw [List.drop_append_of_le_length hlen]
      · have hall : ∀ x ∈ b :: bs, x ≠ 10 := fun x hx hc => hmem (hc ▸ hx)
        have htwL : List.takeWhile (fun x => decide (x ≠ 10)) (b :: bs) = b :: bs :=
          takeWhile_all hall
        have htwR : List.takeWhile (fun x => decide (x ≠ 10)) ((b :: bs) ++ [10]) = b :: bs := by
          have := @takeWhile_append_stop (b :: bs) [] hall
          simpa using this
        rw [eL, eR, htwL, htwR]
        refine ⟨rfl, Or.inl ?_⟩
        dsimp only
        rw [List.drop_of_length_le (by simp), List.drop_of_length_le (by simp)]

theorem exactEnd_append_nl (I : List Nat) (n : Nat) :
    exactEnd (I ++ [10]) n = exactEnd I n := by
  induction I generalizing n with
  | nil =>
    cases n with
    | zero => rfl
    | succ m => simp [exactEnd]
  | cons b bs ih =>
    cases n with
    | zero => rfl
    | succ m =>
      by_cases hb : b = 10
      · simp [exactEnd, hb, ih]
      · simp [exactEnd, hb, ih]

theorem readUntil_append_nl {delim : Nat} (hne : delim ≠ 10) (I D : List Nat) :
    (readUntil delim ⟨I ++ [10], D⟩).2 = (readUntil delim ⟨I, D⟩).2 ∧
    (readUntil delim ⟨I ++ [10], D⟩).1.data = (readUntil delim ⟨I, D⟩).1.data ∧
    ((readUntil delim ⟨I ++ [10], D⟩).1.input = (readUntil delim ⟨I, D⟩).1.input ∨
      (readUntil delim ⟨I ++ [10], D⟩).1.input =
        (readUntil delim ⟨I, D⟩).1.input ++ [10]) := by
  have hpos : position (fun b => b = delim) (I ++ [10]) = position (fun b => b = delim) I :=
    position_append_nl (by simp [Ne.symm hne]) I
  unfold readUntil
  dsimp only
  rw [hpos]
  cases hp : position (fun b => b = delim) I with
  | some k =>
    have hk : k < I.length := position_eq_some_lt hp
    dsimp only
    rw [List.take_append_of_le_length (le_of_lt hk),
      List.drop_append_of_le_length (le_of_lt hk)]
    exact ⟨rfl, rfl, Or.inr rfl⟩
  | none =>
    dsimp only
    rw [List.filter_append]
    simp

theorem readExact_append_nl (len : Nat) (I D : List Nat) :
    (readExact len ⟨I ++ [10], D⟩).2 = (readExact len ⟨I, D⟩).2 ∧
    (readExact len ⟨I ++ [10], D⟩).1.data = (readExact len ⟨I, D⟩).1.data ∧
    ((readExact len ⟨I ++ [10], D⟩).1.input = (readExact len ⟨I, D⟩).1.input ∨
      (readExact len ⟨I ++ [10], D⟩).1.input = (readExact len ⟨I, D⟩).1.input ++ [10]) := by
  unfold readExact
  dsimp only
  rw [exactEnd_append_nl]
  cases hE : exactEnd I len with
  | some k =>
    have hk : k ≤ I.length := exactEnd_le_length hE
    dsimp only
    rw [List.take_append_of_le_length hk, List.drop_append_of_le_length hk]
    exact ⟨rfl, rfl, Or.inr rfl⟩
  | none =>
    dsimp only
    rw [List.filter_append]
    simp

theorem hasDataLeft_append_nl (I D : List Nat) :
    (hasDataLeft ⟨I ++ [10], D⟩).2 = (hasDataLeft ⟨I, D⟩).2 ∧
    (hasDataLeft ⟨I ++ [10], D⟩).1.data = (hasDataLeft ⟨I, D⟩).1.data ∧
    ((hasDataLeft ⟨I ++ [10], D⟩).1.input = (hasDataLeft ⟨I, D⟩).1.input ∨
      (hasDataLeft ⟨I ++ [10], D⟩).1.input = (hasDataLeft ⟨I, D⟩).1.input ++ [10]) := by
  have hany : (I ++ [10]).any (fun b => !(isWs b)) = I.any (fun b => !(isWs b)) := by
    rw [List.any_append]
    have : ([10] : List Nat).any (fun b => !(isWs b)) = false := rfl
    rw [this, Bool.or_false]
  cases hb : I.any (fun b => !(isWs b)) with
  | true =>
    rw [hasDataLeft_true (by rw [hany, hb]), hasDataLeft_true hb]
    exact ⟨rfl, rfl, Or.inr rfl⟩
  | false =>
    rw [hasDataLeft_false (by rw [hany, hb]), hasDataLeft_false hb]
    exact ⟨rfl, rfl, Or.inl rfl⟩

theorem finish_rel {u v : RState} (hd : u.data = v.data)
    (hr : u.input = v.input ∨ u.input = v.input ++ [10])
    (isf : Bool) (head des seq sep qual : Nat) :
    (finish u isf head des seq sep qual).2 = (finish v isf head des seq sep qual).2 ∧
    (finish u isf head des seq sep qual).1.data = (finish v isf head des seq sep qual).1.data ∧
    ((finish u isf head des seq sep qual).1.input =
        (finish v isf head des seq sep qual).1.input ∨
      (finish u isf head des seq sep qual).1.input =
        (finish v isf head des seq sep qual).1.input ++ [10]) := by
  obtain ⟨ui, ud⟩ := u
  obtain ⟨vi, ud⟩ := v
  dsimp only at hd hr
  subst hd
  rcases hr with hr | hr
  · subst hr
    exact ⟨rfl, rfl, Or.inl rfl⟩
  · subst hr
    obtain ⟨a1, a2, a3⟩ := hasDataLeft_append_nl vi ud
    unfold finish
    dsimp only
    rw [a1, a2]
    by_cases c1 : (hasDataLeft ⟨vi, ud⟩).2 = false ∧
        (head = 1 ∨ seq = des ∨ (isf = false ∧ (sep = seq ∨ qual = sep)))
    · simp only [if_pos c1]
      exact ⟨trivial, a2, a3⟩
    · simp only [if_neg c1]
      by_cases c2 : isf = true ∧
          Fastx.validate_fasta ⟨head, des, seq, sep, qual, (hasDataLeft ⟨vi, ud⟩).1.data⟩ = false
      · simp only [if_pos c2]
        exact ⟨trivial, a2, a3⟩
      · simp only [if_neg c2]
        by_cases c3 : ¬(isf = true ∨
            Fastx.validate_fastq ⟨head, des, seq, sep, qual, (hasDataLeft ⟨vi, ud⟩).1.data⟩ = true)
        · simp only [if_pos c3]
          exact ⟨trivial, a2, a3⟩
        · simp only [if_neg c3]
          exact ⟨trivial, a2, a3⟩

theorem readUntil_rel {u v : RState} (hd : u.data = v.data)
    (hr : u.input = v.input ∨ u.input = v.input ++ [10]) {delim : Nat} (hne : delim ≠ 10) :
    (readUntil delim u).2 = (readUntil delim v).2 ∧
    (readUntil delim u).1.data = (readUntil delim v).1.data ∧
    ((readUntil delim u).1.input = (readUntil delim v).1.input ∨
      (readUntil delim u).1.input = (readUntil delim v).1.input ++ [10]) := by
  obtain ⟨ui, ud⟩ := u
  obtain ⟨vi, w⟩ := v
  dsimp only at hd hr
  subst hd
  rcases hr with hr | hr
  · subst hr
    exact ⟨rfl, rfl, Or.inl rfl⟩
  · subst hr
    exact readUntil_append_nl hne vi ud

theorem readExact_rel {u v : RState} (hd : u.data = v.data)
    (hr : u.input = v.input ∨ u.input = v.input ++ [10]) (len : Nat) :
    (readExact len u).2 = (readExact len v).2 ∧
    (readExact len u).1.data = (readExact len v).1.data ∧
    ((readExact len u).1.input = (readExact len v).1.input ∨
      (readExact len u).1.input = (readExact len v).1.input ++ [10]) := by
  obtain ⟨ui, ud⟩ := u
  obtain ⟨vi, w⟩ := v
  dsimp only at hd hr
  subst hd
  rcases hr with hr | hr
  · subst hr
    exact ⟨rfl, rfl, Or.inl rfl⟩
  · subst hr
    exact readExact_append_nl len vi ud

theorem readLine_rel {u v : RState} (hd : u.data = v.data)
    (hr : u.input = v.input ∨ u.input = v.input ++ [10]) (sk : Bool) :
    (readLine sk u).2 = (readLine sk v).2 ∧
    (readLine sk u).1.data = (readLine sk v).1.data ∧
    ((readLine sk u).1.input = (readLine sk v).1.input ∨
      (readLine sk u).1.input = (readLine sk v).1.input ++ [10]) := by
  obtain ⟨ui, ud⟩ := u
  obtain ⟨vi, w⟩ := v
  dsimp only at hd hr
  subst hd
  rcases hr with hr | hr
  · subst hr
    exact ⟨rfl, rfl, Or.inl rfl⟩
  · subst hr
    obtain ⟨h2, hrem⟩ := readLineAux_append_nl sk vi
    unfold readLine
    dsimp only
    rw [h2]
    exact ⟨rfl, rfl, hrem⟩

theorem iterAfterHead_rel {u v : RState} (hd : u.data = v.data)
    (hr : u.input = v.input ∨ u.input = v.input ++ [10]) (des : Nat) :
    (iterAfterHead u des).2 = (iterAfterHead v des).2 ∧
    (iterAfterHead u des).1.data = (iterAfterHead v des).1.data ∧
    ((iterAfterHead u des).1.input = (iterAfterHead v des).1.input ∨
      (iterAfterHead u des).1.input = (iterAfterHead v des).1.input ++ [10]) := by
  unfold iterAfterHead
  dsimp only
  by_cases h0 : des = 0
  · simp only [if_pos h0]
    exact ⟨trivial, hd, hr⟩
  · simp only [if_neg h0]
    by_cases h1 : v.data.head? ≠ some 62 ∧ v.data.head? ≠ some 64
    · have h1' : u.data.head? ≠ some 62 ∧ u.data.head? ≠ some 64 := by rw [hd]; exact h1
      simp only [if_pos h1, if_pos h1']
      exact ⟨by rw [hd], hd, hr⟩
    · have h1' : ¬(u.data.head? ≠ some 62 ∧ u.data.head? ≠ some 64) := by rw [hd]; exact h1
      simp only [if_neg h1, if_neg h1']
      by_cases hf : v.data.head? = some 62
      · have hf' : u.data.head? = some 62 := by rw [hd]; exact hf
        simp only [if_pos hf, if_pos hf']
        obtain ⟨e2, edata, einp⟩ := readUntil_rel hd hr (by decide : (62 : Nat) ≠ 10)
        rw [hd, e2]
        exact finish_rel edata einp true _ des _ _ _
      · have hf' : ¬(u.data.head? = some 62) := by rw [hd]; exact hf
        simp only [if_neg hf, if_neg hf']
        obtain ⟨e2, edata, einp⟩ := readUntil_rel hd hr (by decide : (43 : Nat) ≠ 10)
        obtain ⟨f2, fdata, finp⟩ := readLine_rel edata einp true
        rw [hd, e2, f2]
        obtain ⟨g2, gdata, ginp⟩ :=
          readExact_rel fdata finp (des + (readUntil 43 v).2 - des)
        rw [g2]
        exact finish_rel gdata ginp false _ des _ _ _

theorem iter_record_rel {u v : RState}
    (hr : u.input = v.input ∨ u.input = v.input ++ [10]) :
    (iter_record u).2 = (iter_record v).2 ∧
    (iter_record u).1.data = (iter_record v).1.data ∧
    ((iter_record u).1.input = (iter_record v).1.input ∨
      (iter_record u).1.input = (iter_record v).1.input ++ [10]) := by
  unfold iter_record
  dsimp only
  obtain ⟨e2, edata, einp⟩ := @readLine_rel ⟨u.input, []⟩ ⟨v.input, []⟩ rfl hr true
  rw [e2]
  exact iterAfterHead_rel edata einp _

/-- The results of `n` successive `iter_record` calls on a reader. -/
def runN : Nat → RState → List (Except ParseError (Option Fastx))
  | 0, _ => []
  | n + 1, s => (iter_record s).2 :: runN n (iter_record s).1

theorem runN_rel : ∀ (n : Nat) {u v : RState},
    (u.input = v.input ∨ u.input = v.input ++ [10]) → runN n u = runN n v := by
  intro n
  induction n with
  | zero => intro u v h; rfl
  | succ n ih =>
    intro u v h
    obtain ⟨e2, -, einp⟩ := iter_record_rel h
    simp only [runN]
    rw [e2, ih einp]

/-- C10: appending one trailing newline byte to any input never changes
the sequence of results produced by repeated `iter_record` calls. -/
theorem c10_trailing_newline_invariant (bs : List Nat) (n : Nat) :
    runN n ⟨bs ++ [10], []⟩ = runN n ⟨bs, []⟩ :=
  runN_rel n (Or.inr rfl)

/-! ### The source dispatcher `parse_path` (src/lib.rs) -/

/-- The `Paths` enum of src/lib.rs: one reader over a record stream, or a
list of readers built from a manifest (fofn) file.  A reader is
represented by the full byte content it will serve (the four sniffed
bytes are pushed back in the Rust code, so nothing is lost). -/
inductive PathsM where
  | reader (content : List Nat)
  | readers (contents : List (List Nat))
deriving DecidableEq

/-- Errors of `parse_path`: failing to open a path, fewer than four bytes
for the format sniff (`read_exact` fails), a listed path that does not
exist, the `unreachable!()` arm (a panic, modelled as a distinct
outcome), and fuel exhaustion (the Rust recursion is unbounded). -/
inductive ResolveErr where
  | ioOpen (p : List Nat)
  | ioEof
  | invalidPath (p : List Nat)
  | panicUnreachable
  | noFuel
deriving DecidableEq

/-- The abstract file system: association list from path bytes to file
content bytes (`std::fs::File::open` / `Path::exists` are external
collaborators per the spec). -/
def lookupFS (fs : List (List Nat × List Nat)) (p : List Nat) : Option (List Nat) :=
  (fs.find? (fun e => e.1 = p)).map (fun e => e.2)

/-- Rust `str::trim` on bytes. -/
def trimBytes (l : List Nat) : List Nat :=
  ((l.dropWhile (fun b => isWs b)).reverse.dropWhile (fun b => isWs b)).reverse

def splitLinesAux : List Nat → List Nat → List (List Nat)
  | [], cur => [cur.reverse]
  | b :: bs, cur =>
    if b = 10 then cur.reverse :: splitLinesAux bs [] else splitLinesAux bs (b :: cur)

/-- `BufRead::lines`: split on newline bytes.  (If the content ends with a
newline this also yields a final empty segment, which the manifest loop
skips as a blank line anyway.) -/
def splitLines (l : List Nat) : List (List Nat) := splitLinesAux l []

/-- One iteration of the manifest (fofn) loop of `parse_path`
(src/lib.rs): trim the line, skip blanks and `#` comments, fail on a
missing path, recurse on an existing one; a nested resolution that
returns `Paths::Readers` falls into the `_ => unreachable!()` arm. -/
def resolveLine (fs : List (List Nat × List Nat))
    (rec : List Nat → Except ResolveErr PathsM) (ln : List Nat)
    (acc : Except ResolveErr (List (List Nat))) : Except ResolveErr (List (List Nat)) :=
  let l := trimBytes ln
  if l.head? = some 35 ∨ l = [] then acc
  else if (lookupFS fs l).isSome then
    match rec l with
    | .error e => .error e
    | .ok (.reader c) => acc.map (fun cs => c :: cs)
    | .ok (.readers _) => .error .panicUnreachable
  else .error (.invalidPath l)

/-- `parse_path` of src/lib.rs: open the path, sniff four bytes, unwrap a
gzip envelope once (`gz` models the external decompressor), dispatch on
the first byte: `'@'`/`'>'` gives one `Reader`, anything else treats the
content as a manifest and resolves each listed line recursively.  Path
joining and the stdin branch are external collaborators and are elided:
manifest lines are used directly as keys of `fs`.  `fuel` bounds the
recursion depth, which the Rust code leaves unbounded. -/
def parse_path (fs : List (List Nat × List Nat)) (gz : List Nat → List Nat) :
    Nat → List Nat → Except ResolveErr PathsM
  | 0, _ => .error .noFuel
  | f + 1, path =>
    match lookupFS fs path with
    | none => .error (.ioOpen path)
    | some c0 =>
      if c0.length < 4 then .error .ioEof
      else
        let content := if c0.take 2 = [31, 139] then gz c0 else c0
        if content.length < 4 then .error .ioEof
        else if content.head? = some 64 ∨ content.head? = some 62 then .ok (.reader content)
        else
          ((splitLines content).foldr (resolveLine fs (parse_path fs gz f)) (.ok [])).map
            PathsM.readers

/-- File system for the C3 failing input: `a.fofn` lists `b.fofn`, which
is itself a manifest listing the fasta file `c.fa`. -/
def c3fs : List (List Nat × List Nat) :=
  [([97, 46, 102, 111, 102, 110], [98, 46, 102, 111, 102, 110, 10]),
   ([98, 46, 102, 111, 102, 110], [99, 46, 102, 97, 10]),
   ([99, 46, 102, 97], [62, 120, 10, 65, 67, 71, 84, 10])]

/-- C3: resolving a manifest one of whose listed, existing paths is itself
a manifest does not flatten the nested readers into the parent list — it
hits the `_ => unreachable!()` arm and panics.  The nested manifest alone
resolves fine to a `Paths::Readers` value, which is exactly what the
parent's match refuses to handle. -/
theorem c3_nested_manifest_unreachable :
    parse_path c3fs id 10 [97, 46, 102, 111, 102, 110] = .error .panicUnreachable ∧
    parse_path c3fs id 10 [98, 46, 102, 111, 102, 110] =
      .ok (.readers [[62, 120, 10, 65, 67, 71, 84, 10]]) := by
  decide
